import Mathlib

/-!
# cache2: the per-table item store and its expiration sweep

A shallow embedding of `cacheitem.go` and `cachetable.go`.

* A Go `map[interface{}]*CacheItem` is a finite map with unique keys and no
  order: an `AList`.  Keys and payloads (`interface{}`) are natural numbers.
  A stored `*CacheItem` is reachable only through its map slot, so the slot
  holds the item's value and a write through the pointer rewrites the slot.
* `time.Time` and `time.Duration` are integers (nanoseconds); every
  `time.Now()` of the source is an explicit argument.  The source's `int64`
  durations and access counts are unbounded integers here: a difference of
  two clock readings or a count of accesses does not come near `2^63`.
* The table's `sync.RWMutex` is explicit state, as held by the one goroutine
  that runs the operation: blocking forever and the runtime's fatal errors
  on unbalanced unlocks are results of type `Fault`.
* User functions (callbacks, the loader) do not touch the table; each call is
  recorded in the ghost field `calls` together with the locks held.
* `sort.Sort` belongs to the Go standard library: `MostAccessed` takes the
  sort as an argument, and `Sorts` says what the library promises of it.
-/

namespace Cache2

abbrev Key := Nat
abbrev Data := Nat
abbrev Duration := Int
abbrev Time := Int

/-- Modelled from the spec: the two error values `ErrKeyNotFound` and
`ErrKeyNotFoundOrLoadable` are used by `cachetable.go` but declared in a file
that is not part of the sources; section 7 of the spec names exactly these
two kinds. -/
inductive Err where
  | ErrKeyNotFound
  | ErrKeyNotFoundOrLoadable
deriving DecidableEq, Repr

/-- Ways in which a call does not return: the goroutine blocks forever on a
lock it holds itself, or the runtime aborts with
`fatal error: sync: Unlock of unlocked RWMutex` (resp. `RUnlock`). -/
inductive Fault where
  | deadlock
  | unlockOfUnlocked
  | rUnlockOfUnlocked
deriving DecidableEq, Repr

/-- The struct `CacheItem` of `cacheitem.go`.  Its embedded `RWMutex` is only
ever read-locked (no method takes `item.Lock()`), so it never blocks; the
read locks held on items are counted in `CacheTable.itemRLocks`.
`aboutToExpire` is the list of the registered functions (by identifier);
the nil slice is `[]`. -/
structure CacheItem where
  key : Key
  data : Data
  lifeSpan : Duration
  createOn : Time
  accessOn : Time
  accessCount : Int
  aboutToExpire : List Nat
deriving DecidableEq, Repr

/-- The table lock as seen by the running goroutine: how many read locks it
holds and whether it holds the write lock. -/
structure RWMutex where
  readers : Nat
  writer : Bool
deriving DecidableEq, Repr

/-- A `*time.Timer`: the duration it was armed with and whether it is still
pending (`Stop` clears `active`). -/
structure Timer where
  d : Duration
  active : Bool
deriving DecidableEq, Repr

/-- Method `Stop` of a timer. -/
def Timer.Stop (tm : Timer) : Timer :=
  { tm with active := false }

/-- Which user function is being called. -/
inductive Hook where
  | addedItem
  | aboutDeleteItem
  | loadData
deriving DecidableEq, Repr

/-- One call of a user function: the slice it was taken from, the
function's identifier, the map key of the item passed (for the loader, the
key asked for), the table lock and the item read locks held by the caller
at that moment, and whether the map holds the key at that moment. -/
structure Call where
  hook : Hook
  fn : Nat
  key : Key
  mu : RWMutex
  itemRLocks : Nat
  present : Bool
deriving DecidableEq, Repr

/-- The struct `CacheTable` of `cachetable.go`.  `logger` is left out:
`table.log` only prints.  `itemRLocks` and `calls` are ghost state. -/
structure CacheTable where
  mu : RWMutex
  name : String
  item : AList (fun _ : Key => CacheItem)
  cleanupTimer : Option Timer
  cleanupInterval : Duration
  loadData : Option (Key → Option CacheItem)
  addedItem : List Nat
  aboutDeleteItem : List Nat
  itemRLocks : Nat
  calls : List Call

/-- The table literal built by `Cache(table)` in `cache.go`. -/
def Cache (table : String) : CacheTable :=
  { mu := ⟨0, false⟩, name := table, item := ∅, cleanupTimer := none,
    cleanupInterval := 0, loadData := none, addedItem := [],
    aboutDeleteItem := [], itemRLocks := 0, calls := [] }

/-- Function `NewCacheItem`; `t` is its `time.Now()`. -/
def NewCacheItem (t : Time) (key : Key) (data : Data) (lifeSpan : Duration) :
    CacheItem :=
  { key := key, data := data, lifeSpan := lifeSpan, createOn := t,
    accessOn := t, accessCount := 0, aboutToExpire := [] }

/-- Method `KeepAlive` of `CacheItem`, on the fields; `now` is its
`time.Now()`.  Its `item.RLock()` and deferred `item.RUnlock()` are
`itemRLock` and `itemRUnlock` at the call site. -/
def CacheItem.KeepAlive (now : Time) (item : CacheItem) : CacheItem :=
  { item with accessOn := now, accessCount := item.accessCount + 1 }

namespace CacheTable

/-- Method `table.Lock()`: granted when nobody holds the lock; the caller
blocks forever when it holds a read or the write lock itself. -/
def Lock (t : CacheTable) : Except Fault CacheTable :=
  if t.mu.readers = 0 ∧ t.mu.writer = false then
    .ok { t with mu := ⟨0, true⟩ }
  else .error .deadlock

/-- Method `table.Unlock()`: fatal unless the write lock is held. -/
def Unlock (t : CacheTable) : Except Fault CacheTable :=
  if t.mu.writer = true then .ok { t with mu := ⟨t.mu.readers, false⟩ }
  else .error .unlockOfUnlocked

/-- Method `table.RLock()`: blocks forever behind the caller's own write
lock, otherwise one more reader. -/
def RLock (t : CacheTable) : Except Fault CacheTable :=
  if t.mu.writer = true then .error .deadlock
  else .ok { t with mu := ⟨t.mu.readers + 1, false⟩ }

/-- Method `table.RUnlock()`: fatal unless a read lock is held. -/
def RUnlock (t : CacheTable) : Except Fault CacheTable :=
  if t.mu.writer = false ∧ 0 < t.mu.readers then
    .ok { t with mu := ⟨t.mu.readers - 1, false⟩ }
  else .error .rUnlockOfUnlocked

/-- Method `item.RLock()` on some item. -/
def itemRLock (t : CacheTable) : CacheTable :=
  { t with itemRLocks := t.itemRLocks + 1 }

/-- Method `item.RUnlock()` on some item. -/
def itemRUnlock (t : CacheTable) : Except Fault CacheTable :=
  if 0 < t.itemRLocks then .ok { t with itemRLocks := t.itemRLocks - 1 }
  else .error .rUnlockOfUnlocked

/-- One call `callback(item)` of a user function. -/
def call (hook : Hook) (key : Key) (t : CacheTable) (fn : Nat) : CacheTable :=
  { t with calls := t.calls ++
      [⟨hook, fn, key, t.mu, t.itemRLocks, (t.item.lookup key).isSome⟩] }

/-- The loop `for _, callback := range fns { callback(item) }`. -/
def callAll (hook : Hook) (fns : List Nat) (key : Key) (t : CacheTable) :
    CacheTable :=
  fns.foldl (call hook key) t

/-- Method `Count`. -/
def Count (t : CacheTable) : Except Fault (Nat × CacheTable) := do
  let t ← t.RLock
  let n := t.item.entries.length
  let t ← t.RUnlock
  pure (n, t)

/-- Method `Exists`. -/
def Exists (key : Key) (t : CacheTable) : Except Fault (Bool × CacheTable) := do
  let t ← t.RLock
  let ok := (t.item.lookup key).isSome
  let t ← t.RUnlock
  pure (ok, t)

/-- Method `deleteInternal`; the result is the pair `(error, *CacheItem)`
with `none` for nil.  The second loop ranges over `aboutToDeleteItem`, the
table's slice, as the source does, guarded by `r.aboutToExpire != nil` and
run under the item's read lock, which the deferred `r.RUnlock()` releases
last. -/
def deleteInternal (key : Key) (t : CacheTable) :
    Except Fault ((Option Err × Option CacheItem) × CacheTable) :=
  match t.item.lookup key with
  | none => pure ((some .ErrKeyNotFound, none), t)
  | some r => do
    let aboutToDeleteItem := t.aboutDeleteItem
    let t ← t.Unlock
    let t := callAll .aboutDeleteItem aboutToDeleteItem key t
    let t := t.itemRLock
    let t := if r.aboutToExpire ≠ [] then
        callAll .aboutDeleteItem aboutToDeleteItem key t else t
    let t ← t.Lock
    let t := { t with item := t.item.erase key }
    let t ← t.itemRUnlock
    pure ((none, some r), t)

/-- Body of the loop `for k, item := range table.item` of `expirationCheck`
at the entry with key `k`: an entry deleted before it is reached is not
produced, and `item` is read through the pointer. -/
def sweepBody (now : Time) (acc : CacheTable × Duration) (k : Key) :
    Except Fault (CacheTable × Duration) :=
  match acc.1.item.lookup k with
  | none => pure acc
  | some item => do
    let t := acc.1.itemRLock
    let lifespan := item.lifeSpan
    let accesson := item.accessOn
    let t ← t.itemRUnlock
    if lifespan = 0 then pure (t, acc.2)
    else if now - accesson ≥ lifespan then do
      let r ← deleteInternal k t
      pure (r.2, acc.2)
    else if acc.2 = 0 ∨ lifespan - (now - accesson) < acc.2 then
      pure (t, lifespan - (now - accesson))
    else pure (t, acc.2)

/-- Method `expirationCheck`; `now` is its `time.Now()`.  The timer armed at
the end only starts another `expirationCheck` later, on its own goroutine. -/
def expirationCheck (now : Time) (t : CacheTable) : Except Fault CacheTable := do
  let t ← t.Lock
  let t := { t with cleanupTimer := t.cleanupTimer.map Timer.Stop }
  let r ← t.item.keys.foldlM (sweepBody now) (t, (0 : Duration))
  let t := { r.1 with cleanupInterval := r.2 }
  let t := if r.2 > 0 then { t with cleanupTimer := some ⟨r.2, true⟩ } else t
  t.Unlock

/-- Method `addInternal`, entered with the write lock held; `nowSweep` is
the `time.Now()` of the sweep it may run. -/
def addInternal (nowSweep : Time) (item : CacheItem) (t : CacheTable) :
    Except Fault CacheTable := do
  let t := { t with item := t.item.insert item.key item }
  let expDur := t.cleanupInterval
  let addedItem := t.addedItem
  let t ← t.Unlock
  let t := callAll .addedItem addedItem item.key t
  if item.lifeSpan > 0 ∧ (expDur = 0 ∨ item.lifeSpan < expDur) then
    expirationCheck nowSweep t
  else pure t

/-- Method `Add`; `now` is the `time.Now()` of `NewCacheItem`. -/
def Add (now nowSweep : Time) (key : Key) (lifeSpan : Duration) (data : Data)
    (t : CacheTable) : Except Fault (CacheItem × CacheTable) := do
  let item := NewCacheItem now key data lifeSpan
  let t ← t.Lock
  let t ← addInternal nowSweep item t
  pure (item, t)

/-- Method `Delete`. -/
def Delete (key : Key) (t : CacheTable) :
    Except Fault ((Option Err × Option CacheItem) × CacheTable) := do
  let t ← t.Lock
  let t ← t.Unlock
  deleteInternal key t

/-- Method `NotFoundAdd`. -/
def NotFoundAdd (now nowSweep : Time) (key : Key) (data : Data)
    (lifespan : Duration) (t : CacheTable) : Except Fault (Bool × CacheTable) := do
  let t ← t.Lock
  if (t.item.lookup key).isSome then
    let t ← t.Unlock
    pure (false, t)
  else
    let item := NewCacheItem now key data lifespan
    let t ← addInternal nowSweep item t
    pure (true, t)

/-- Method `Value`; the result is the pair `(*CacheItem, error)`.  `now` is
the `time.Now()` of `KeepAlive`, `nowAdd` and `nowSweep` those of the `Add`
on the loader path.  The deferred `table.RUnlock()` runs last on every
path that returns. -/
def Value (now nowAdd nowSweep : Time) (key : Key) (t : CacheTable) :
    Except Fault ((Option CacheItem × Option Err) × CacheTable) := do
  let t ← t.RLock
  let loadData := t.loadData
  match t.item.lookup key with
  | some r =>
    let t := t.itemRLock
    let r := r.KeepAlive now
    let t := { t with item := t.item.insert key r }
    let t ← t.itemRUnlock
    let t ← t.RUnlock
    pure ((some r, none), t)
  | none =>
    match loadData with
    | some f =>
      let t := call .loadData key t 0
      match f key with
      | some item =>
        let r ← Add nowAdd nowSweep item.key item.lifeSpan item.data t
        let t ← r.2.RUnlock
        pure ((some item, none), t)
      | none =>
        let t ← t.RUnlock
        pure ((none, some .ErrKeyNotFoundOrLoadable), t)
    | none =>
      let t ← t.RUnlock
      pure ((none, some .ErrKeyNotFound), t)

/-- Method `Flush`. -/
def Flush (t : CacheTable) : Except Fault CacheTable := do
  let t ← t.Lock
  let t := { t with item := ∅ }
  let t := { t with cleanupInterval := 0 }
  let t := { t with cleanupTimer := t.cleanupTimer.map Timer.Stop }
  t.Unlock

/-- The test of the sweep on one item: it is not skipped (`lifespan == 0`)
and `now.Sub(accesson) >= lifespan`. -/
def expired (now : Time) (it : CacheItem) : Bool :=
  decide (it.lifeSpan ≠ 0) && decide (now - it.accessOn ≥ it.lifeSpan)

/-- The update of `smallestDuration` at one key of the map `m`, written on
the map alone. -/
def minStep (now : Time) (m : AList (fun _ : Key => CacheItem)) (s : Duration)
    (k : Key) : Duration :=
  match m.lookup k with
  | none => s
  | some it =>
    if it.lifeSpan = 0 then s
    else if now - it.accessOn ≥ it.lifeSpan then s
    else if s = 0 ∨ it.lifeSpan - (now - it.accessOn) < s then
      it.lifeSpan - (now - it.accessOn)
    else s

/-- The map after the loop body of the sweep at key `k`, written on the map
alone. -/
def sweepItems (now : Time) (m : AList (fun _ : Key => CacheItem)) (k : Key) :
    AList (fun _ : Key => CacheItem) :=
  match m.lookup k with
  | none => m
  | some it => if expired now it = true then m.erase k else m

/-- The map and `smallestDuration` after the loop body of the sweep at key
`k`, written on the map alone. -/
def sweepPure (now : Time) (acc : AList (fun _ : Key => CacheItem) × Duration)
    (k : Key) : AList (fun _ : Key => CacheItem) × Duration :=
  (sweepItems now acc.1 k, minStep now acc.1 acc.2 k)

/-- The value of `smallestDuration` at the end of the sweep of the map `m`,
written on the map alone. -/
def sweepMin (now : Time) (m : AList (fun _ : Key => CacheItem)) : Duration :=
  m.keys.foldl (minStep now m) 0

/-- The calls made by `deleteInternal` for the entry under `key`. -/
def deleteCalls (key : Key) (r : CacheItem) (t : CacheTable) : List Call :=
  (t.aboutDeleteItem.map fun f =>
      (⟨.aboutDeleteItem, f, key, ⟨0, false⟩, t.itemRLocks, true⟩ : Call)) ++
    if r.aboutToExpire ≠ [] then
      t.aboutDeleteItem.map fun f =>
        (⟨.aboutDeleteItem, f, key, ⟨0, false⟩, t.itemRLocks + 1, true⟩ : Call)
    else []

end CacheTable

/-! ## Callback registration and access-frequency reporting -/

/-- The struct `CacheItemPair` of `cachetable.go`. -/
structure CacheItemPair where
  key : Key
  AccessCount : Int
deriving DecidableEq, Repr

/-- Method `Less` of `CacheItemPairList`, on two elements:
`p[i].AccessCount > p[j].AccessCount`. -/
def CacheItemPairList.Less (a b : CacheItemPair) : Bool :=
  decide (a.AccessCount > b.AccessCount)

/-- What `sort.Sort` of the Go standard library does to a
`CacheItemPairList`: it reorders the elements, and afterwards no element is
`Less` than one that stands before it.  The library is not part of the
sources; the sort is an argument of `MostAccessed`. -/
def Sorts (sort : List CacheItemPair → List CacheItemPair) : Prop :=
  ∀ p, (sort p).Perm p ∧
    (sort p).Pairwise fun a b => CacheItemPairList.Less b a = false

/-- An insertion sort by descending access count: one function that
`Sorts`. -/
def descSort (p : List CacheItemPair) : List CacheItemPair :=
  p.insertionSort fun a b => b.AccessCount ≤ a.AccessCount

namespace CacheTable

/-- Method `RemoveAddedItemCallbacks`. -/
def RemoveAddedItemCallbacks (t : CacheTable) : Except Fault CacheTable := do
  let t ← t.RLock
  let t := { t with addedItem := [] }
  t.RUnlock

/-- Method `SetAddedItemCallback`; the deferred `table.RUnlock()` runs
last. -/
def SetAddedItemCallback (f : Nat) (t : CacheTable) : Except Fault CacheTable := do
  let t ← t.RLock
  let t ← if t.addedItem.length > 0 then t.RemoveAddedItemCallbacks else pure t
  let t := { t with addedItem := t.addedItem ++ [f] }
  t.RUnlock

/-- Method `AddAddedItemCallback`. -/
def AddAddedItemCallback (f : Nat) (t : CacheTable) : Except Fault CacheTable := do
  let t ← t.RLock
  let t := { t with addedItem := t.addedItem ++ [f] }
  t.RUnlock

/-- The loop `for _, v := range p` of `MostAccessed`: `c` counts the
elements seen, `r` is the slice built so far. -/
def mostLoop (t : CacheTable) (count : Int) :
    List CacheItemPair → Int → List CacheItem → List CacheItem
  | [], _, r => r
  | v :: rest, c, r =>
    if c ≥ count then r
    else
      match t.item.lookup v.key with
      | some item => mostLoop t count rest (c + 1) (r ++ [item])
      | none => mostLoop t count rest (c + 1) r

/-- Method `MostAccessed`; `sort` stands for `sort.Sort`.  The deferred
`table.RUnlock()` runs last. -/
def MostAccessed (sort : List CacheItemPair → List CacheItemPair) (count : Int)
    (t : CacheTable) : Except Fault (List CacheItem × CacheTable) := do
  let t ← t.RLock
  let p := t.item.entries.map fun e => (⟨e.1, e.2.accessCount⟩ : CacheItemPair)
  let p := sort p
  let r := mostLoop t count p 0 []
  let t ← t.RUnlock
  pure (r, t)

end CacheTable

/-- A call that a sweep of the table `t` may record: one of the table's
before-delete callbacks, called with the table lock free, the key still in
the map, and at most one item read lock more than `t` holds. -/
def sweepCall (t : CacheTable) (x : Call) : Prop :=
  x.hook = .aboutDeleteItem ∧ x.fn ∈ t.aboutDeleteItem ∧ x.mu = ⟨0, false⟩ ∧
    (x.itemRLocks = t.itemRLocks ∨ x.itemRLocks = t.itemRLocks + 1) ∧ x.present = true

/-- The locks held at a recorded call of a callback: the table lock is
free; no item read lock is held at an added-item callback, and at most one
at a before-delete callback. -/
def callUnlocked (x : Call) : Prop :=
  x.mu = ⟨0, false⟩ ∧ x.hook ≠ .loadData ∧ (x.hook = .addedItem → x.itemRLocks = 0) ∧
    (x.hook = .aboutDeleteItem → x.itemRLocks ≤ 1)

/-- The slice `p` of `MostAccessed` before it is sorted: one pair for each
entry of the map. -/
def CacheTable.pairs (t : CacheTable) : List CacheItemPair :=
  t.item.entries.map fun e => (⟨e.1, e.2.accessCount⟩ : CacheItemPair)

/-- The pair `v` of the sorted slice and the item `MostAccessed` appends for
it: the item stored under the pair's key, whose access count the pair
carries. -/
def CacheTable.resolves (t : CacheTable) (v : CacheItemPair) (it : CacheItem) : Prop :=
  t.item.lookup v.key = some it ∧ it.accessCount = v.AccessCount

/-! ## Runs of hits and sweeps -/

/-- One step of a run on a key: a call `Value(key)` whose `time.Now()` is
`now`, or a sweep `expirationCheck` whose `time.Now()` is `now`. -/
inductive Step where
  | value (now : Time)
  | sweep (now : Time)
deriving DecidableEq, Repr

/-- The table after one step; the result of `Value` is dropped. -/
def runStep (key : Key) (t : CacheTable) : Step → Except Fault CacheTable
  | .value now => do
    let r ← CacheTable.Value now now now key t
    pure r.2
  | .sweep now => CacheTable.expirationCheck now t

/-- The table after the steps, run in order. -/
def runSteps (key : Key) (steps : List Step) (t : CacheTable) :
    Except Fault CacheTable :=
  steps.foldlM (runStep key) t

/-- The `time.Now()` of a step. -/
def Step.now : Step → Time
  | .value now => now
  | .sweep now => now

/-- The time of the most recent `Value` step once the step is done, `last`
being that time before the step. -/
def Step.access (last : Time) : Step → Time
  | .value now => now
  | .sweep _ => last

/-- Every step occurs less than `d` after the most recent `Value` step
before it, or after `last` when there is none. -/
def fresh (d : Duration) : Time → List Step → Prop
  | _, [] => True
  | last, s :: rest => s.now - last < d ∧ fresh d (s.access last) rest

/-! ## Concrete tables -/

/-- A free table holding one item, under key 1, with lifeSpan -1, created
and last accessed at time 0. -/
def tableNeg : CacheTable :=
  { Cache "t" with item := AList.insert 1 (NewCacheItem 0 1 7 (-1)) ∅ }

/-- A free table with one before-delete callback and three items created at
time 0: key 1 with lifeSpan 10, key 2 with lifeSpan 25, key 3 with
lifeSpan 0. -/
def tableThree : CacheTable :=
  { Cache "t" with
    aboutDeleteItem := [7]
    item := AList.insert 1 (NewCacheItem 0 1 100 10)
      (AList.insert 2 (NewCacheItem 0 2 200 25)
        (AList.insert 3 (NewCacheItem 0 3 300 0) ∅)) }

/-- A free, empty table whose loader yields an item with lifeSpan 0 for
key 1 and nothing for any other key. -/
def tableLoader : CacheTable :=
  { Cache "t" with
    loadData := some fun k => if k = 1 then some (NewCacheItem 0 1 5 0) else none }

/-- A free table with one before-delete callback, 7, holding under key 1 an
item with lifeSpan 10, created at time 0, that has one pre-expire callback
of its own, 9. -/
def tableHooks : CacheTable :=
  { Cache "t" with
    aboutDeleteItem := [7]
    item := AList.insert 1 { NewCacheItem 0 1 100 10 with aboutToExpire := [9] } ∅ }

/-- The table `tableThree` after two hits on key 2 and one hit on key 3, with
two added-item callbacks, 5 then 6. -/
def tableCounts : CacheTable :=
  { Cache "t" with
    addedItem := [5, 6]
    item := AList.insert 1 (NewCacheItem 0 1 100 10)
      (AList.insert 2 { NewCacheItem 0 2 200 25 with accessCount := 2 }
        (AList.insert 3 { NewCacheItem 0 3 300 0 with accessCount := 1 } ∅)) }

/-- A free table holding one item, under key 3, with lifeSpan 0, and one
before-delete callback. -/
def tableZero : CacheTable :=
  { Cache "t" with
    aboutDeleteItem := [7]
    item := AList.insert 3 (NewCacheItem 0 3 300 0) ∅ }

/-! ## Locks and callbacks -/

namespace CacheTable

theorem Lock_free (t : CacheTable) (h : t.mu = ⟨0, false⟩) :
    t.Lock = .ok { t with mu := ⟨0, true⟩ } := by
  simp [Lock, h]

theorem Unlock_held (t : CacheTable) (h : t.mu = ⟨0, true⟩) :
    t.Unlock = .ok { t with mu := ⟨0, false⟩ } := by
  simp [Unlock, h]

theorem itemRUnlock_itemRLock (t : CacheTable) : t.itemRLock.itemRUnlock = .ok t := by
  simp [itemRLock, itemRUnlock]

theorem callAll_eq (hook : Hook) (key : Key) (fns : List Nat) :
    ∀ t : CacheTable, callAll hook fns key t =
      { t with calls := t.calls ++ fns.map fun f =>
          ⟨hook, f, key, t.mu, t.itemRLocks, (t.item.lookup key).isSome⟩ } := by
  induction fns with
  | nil => intro t; simp [callAll]
  | cons f fns ih =>
    intro t
    have := ih (call hook key t f)
    simp only [callAll, List.foldl_cons] at this ⊢
    rw [this]
    simp [call]

theorem deleteInternal_held (key : Key) (t : CacheTable) (r : CacheItem)
    (hmu : t.mu = ⟨0, true⟩) (hr : t.item.lookup key = some r) :
    deleteInternal key t = .ok ((none, some r),
      { t with item := t.item.erase key, calls := t.calls ++ deleteCalls key r t }) := by
  unfold deleteInternal
  rw [hr]
  simp only [Unlock_held t hmu, callAll_eq, bind, Except.bind, pure, Except.pure]
  by_cases hx : r.aboutToExpire = []
  · simp [hx, Lock, itemRLock, itemRUnlock, deleteCalls, hr, hmu]
  · simp [hx, Lock, itemRLock, itemRUnlock, deleteCalls, hr, hmu]

/-! ## The sweep -/

theorem sweepBody_held (now : Time) (t : CacheTable) (s : Duration) (k : Key)
    (hmu : t.mu = ⟨0, true⟩) :
    ∃ c, sweepBody now (t, s) k =
      .ok ({ t with item := sweepItems now t.item k, calls := c },
        minStep now t.item s k) := by
  unfold sweepBody sweepItems minStep
  cases hl : t.item.lookup k with
  | none => exact ⟨t.calls, rfl⟩
  | some it =>
    simp only [itemRUnlock_itemRLock, bind, Except.bind, pure, Except.pure]
    by_cases h0 : it.lifeSpan = 0
    · refine ⟨t.calls, ?_⟩
      simp [h0, expired]
    · by_cases h1 : now - it.accessOn ≥ it.lifeSpan
      · refine ⟨t.calls ++ deleteCalls k it t, ?_⟩
        simp [h0, h1, expired, deleteInternal_held k t it hmu hl]
      · refine ⟨t.calls, ?_⟩
        by_cases h2 : s = 0 ∨ it.lifeSpan - (now - it.accessOn) < s
        · simp [h0, h1, h2, expired]
        · simp [h0, h1, h2, expired]

theorem sweep_loop (now : Time) (ks : List Key) :
    ∀ (t : CacheTable) (s : Duration), t.mu = ⟨0, true⟩ →
      ∃ c, ks.foldlM (sweepBody now) (t, s) =
        .ok ({ t with item := (ks.foldl (sweepPure now) (t.item, s)).1, calls := c },
          (ks.foldl (sweepPure now) (t.item, s)).2) := by
  induction ks with
  | nil => intro t s _; exact ⟨t.calls, rfl⟩
  | cons k ks ih =>
    intro t s hmu
    obtain ⟨c, hc⟩ := sweepBody_held now t s k hmu
    obtain ⟨c2, hc2⟩ := ih { t with item := sweepItems now t.item k, calls := c }
      (minStep now t.item s k) hmu
    refine ⟨c2, ?_⟩
    simp only [List.foldlM_cons, hc, bind, Except.bind, List.foldl_cons]
    rw [hc2]
    rfl

theorem lookup_sweepItems (now : Time) (m : AList (fun _ : Key => CacheItem)) (k0 k : Key) :
    (sweepItems now m k0).lookup k =
      if k = k0 then (m.lookup k).filter (fun it => !expired now it) else m.lookup k := by
  unfold sweepItems
  by_cases hk : k = k0
  · subst hk
    cases hl : m.lookup k with
    | none => simp [hl, Option.filter]
    | some it =>
      by_cases he : expired now it = true
      · simp [he, AList.lookup_erase, Option.filter]
      · simp [he, hl, Option.filter]
  · cases hl : m.lookup k0 with
    | none => simp [hk]
    | some it =>
      by_cases he : expired now it = true
      · simp [he, hk, AList.lookup_erase_ne hk]
      · simp [he, hk]

theorem filter_live_idem (now : Time) (o : Option CacheItem) :
    (o.filter (fun it => !expired now it)).filter (fun it => !expired now it) =
      o.filter (fun it => !expired now it) := by
  cases o with
  | none => rfl
  | some it =>
    by_cases he : expired now it = true
    · simp [he, Option.filter]
    · simp [he, Option.filter]

theorem lookup_sweep_fold (now : Time) (ks : List Key) :
    ∀ (m : AList (fun _ : Key => CacheItem)) (s : Duration) (k : Key),
      (ks.foldl (sweepPure now) (m, s)).1.lookup k =
        if k ∈ ks then (m.lookup k).filter (fun it => !expired now it) else m.lookup k := by
  induction ks with
  | nil => intro m s k; simp
  | cons k0 ks ih =>
    intro m s k
    simp only [List.foldl_cons, sweepPure]
    rw [ih, lookup_sweepItems]
    by_cases hk : k = k0
    · subst hk
      by_cases hm : k ∈ ks
      · simp [hm, filter_live_idem]
      · simp [hm]
    · by_cases hm : k ∈ ks
      · simp [hm, hk]
      · simp [hm, hk]

theorem minStep_sweepItems (now : Time) (m : AList (fun _ : Key => CacheItem))
    (k0 k : Key) (s : Duration) :
    minStep now (sweepItems now m k0) s k = minStep now m s k := by
  unfold minStep
  rw [lookup_sweepItems]
  by_cases hk : k = k0
  · subst hk
    cases hl : m.lookup k with
    | none => simp [Option.filter]
    | some it =>
      by_cases he : expired now it = true
      · have he2 := he
        simp only [expired, Bool.and_eq_true, decide_eq_true_eq] at he2
        simp [he, he2.1, he2.2, Option.filter]
      · simp [he, Option.filter]
  · simp [hk]

theorem min_sweep_fold (now : Time) (ks : List Key) :
    ∀ (m : AList (fun _ : Key => CacheItem)) (s : Duration),
      (ks.foldl (sweepPure now) (m, s)).2 = ks.foldl (minStep now m) s := by
  induction ks with
  | nil => intro m s; rfl
  | cons k0 ks ih =>
    intro m s
    simp only [List.foldl_cons, sweepPure]
    rw [ih]
    congr 1
    funext s2 k
    exact minStep_sweepItems now m k0 k s2

theorem expirationCheck_free (now : Time) (t : CacheTable) (hmu : t.mu = ⟨0, false⟩) :
    ∃ m c, expirationCheck now t =
        .ok { t with
          item := m
          calls := c
          cleanupInterval := sweepMin now t.item
          cleanupTimer := if sweepMin now t.item > 0 then some ⟨sweepMin now t.item, true⟩
            else t.cleanupTimer.map Timer.Stop } ∧
      ∀ k, m.lookup k = (t.item.lookup k).filter (fun it => !expired now it) := by
  obtain ⟨c, hc⟩ := sweep_loop now t.item.keys
    { t with mu := ⟨0, true⟩, cleanupTimer := t.cleanupTimer.map Timer.Stop } 0 rfl
  refine ⟨(t.item.keys.foldl (sweepPure now) (t.item, 0)).1, c, ?_, ?_⟩
  · unfold expirationCheck
    simp only [Lock_free t hmu, bind, Except.bind]
    rw [hc]
    simp only [min_sweep_fold]
    by_cases hpos : sweepMin now t.item > 0
    · have hpos2 := hpos
      unfold sweepMin at hpos2
      simp [hpos, hpos2, Unlock, sweepMin, hmu]
    · have hpos2 := hpos
      unfold sweepMin at hpos2
      simp [hpos, hpos2, Unlock, sweepMin, hmu]
  · intro k
    rw [lookup_sweep_fold]
    by_cases hk : k ∈ t.item.keys
    · simp [hk]
    · have : t.item.lookup k = none := AList.lookup_eq_none.mpr (fun h => hk (AList.mem_keys.mp h))
      simp [hk, this, Option.filter]

theorem minStep_spec (now : Time) (m : AList (fun _ : Key => CacheItem)) (s : Duration)
    (k : Key) (hs : 0 ≤ s) :
    0 ≤ minStep now m s k ∧
    (0 < s → 0 < minStep now m s k ∧ minStep now m s k ≤ s) ∧
    (∀ it, m.lookup k = some it → it.lifeSpan ≠ 0 → now - it.accessOn < it.lifeSpan →
      0 < minStep now m s k ∧ minStep now m s k ≤ it.lifeSpan - (now - it.accessOn)) ∧
    (minStep now m s k = s ∨ ∃ it, m.lookup k = some it ∧ it.lifeSpan ≠ 0 ∧
      now - it.accessOn < it.lifeSpan ∧
      minStep now m s k = it.lifeSpan - (now - it.accessOn)) := by
  unfold minStep
  simp only [Duration, Time] at *
  cases hl : m.lookup k with
  | none =>
    dsimp only
    exact ⟨hs, fun h => ⟨h, le_refl _⟩, fun it h => (nomatch h), Or.inl rfl⟩
  | some it =>
    dsimp only
    split_ifs with h0 h1 h2
    · refine ⟨hs, fun h => ⟨h, le_refl _⟩, ?_, Or.inl rfl⟩
      intro it2 h3 h4 _
      cases h3
      exact absurd h0 h4
    · refine ⟨hs, fun h => ⟨h, le_refl _⟩, ?_, Or.inl rfl⟩
      intro it2 h3 _ h5
      cases h3
      omega
    · refine ⟨by omega, fun h => by omega, ?_, Or.inr ⟨it, rfl, h0, by omega, rfl⟩⟩
      intro it2 h3 _ _
      cases h3
      omega
    · refine ⟨hs, fun h => ⟨h, le_refl _⟩, ?_, Or.inl rfl⟩
      intro it2 h3 _ _
      cases h3
      omega

theorem minFold_spec (now : Time) (m : AList (fun _ : Key => CacheItem)) (ks : List Key) :
    ∀ s : Duration, 0 ≤ s →
      0 ≤ ks.foldl (minStep now m) s ∧
      (0 < s → 0 < ks.foldl (minStep now m) s ∧ ks.foldl (minStep now m) s ≤ s) ∧
      (∀ k ∈ ks, ∀ it, m.lookup k = some it → it.lifeSpan ≠ 0 →
        now - it.accessOn < it.lifeSpan →
        0 < ks.foldl (minStep now m) s ∧
          ks.foldl (minStep now m) s ≤ it.lifeSpan - (now - it.accessOn)) ∧
      (ks.foldl (minStep now m) s = s ∨ ∃ k ∈ ks, ∃ it, m.lookup k = some it ∧
        it.lifeSpan ≠ 0 ∧ now - it.accessOn < it.lifeSpan ∧
        ks.foldl (minStep now m) s = it.lifeSpan - (now - it.accessOn)) := by
  induction ks with
  | nil =>
    intro s hs
    exact ⟨hs, fun h => ⟨h, le_refl _⟩, fun k hk => absurd hk (List.not_mem_nil k), Or.inl rfl⟩
  | cons k0 ks ih =>
    intro s hs
    obtain ⟨a1, a2, a3, a4⟩ := minStep_spec now m s k0 hs
    obtain ⟨b1, b2, b3, b4⟩ := ih (minStep now m s k0) a1
    simp only [List.foldl_cons]
    simp only [Duration, Time] at *
    refine ⟨b1, ?_, ?_, ?_⟩
    · intro h
      have := a2 h
      have := b2 this.1
      omega
    · intro k hk it hl h0 h1
      rcases List.mem_cons.mp hk with rfl | hk
      · have := a3 it hl h0 h1
        have := b2 this.1
        omega
      · exact b3 k hk it hl h0 h1
    · rcases b4 with b4 | ⟨k, hk, it, hl, h0, h1, he⟩
      · rcases a4 with a4 | ⟨it, hl, h0, h1, he⟩
        · left; rw [b4, a4]
        · right; exact ⟨k0, List.mem_cons_self _ _, it, hl, h0, h1, by rw [b4, he]⟩
      · right; exact ⟨k, List.mem_cons_of_mem _ hk, it, hl, h0, h1, he⟩

end CacheTable

/-! ## C1: what the sweep removes -/

/-- C1, as stated, fails: the table `tableNeg`, which is the new table after
Add(1, -1, 7) at time 0, holds under key 1 an item with lifeSpan -1, which
is not positive, and the sweep at time 0 returns with that item removed. -/
theorem expirationCheck_removes_negative_lifeSpan :
    CacheTable.Add 0 0 1 (-1) 7 (Cache "t") = .ok (NewCacheItem 0 1 7 (-1), tableNeg) ∧
    tableNeg.mu = ⟨0, false⟩ ∧
    tableNeg.item.lookup 1 = some (NewCacheItem 0 1 7 (-1)) ∧
    ¬ (0 < (NewCacheItem 0 1 7 (-1)).lifeSpan) ∧
    ∃ t, CacheTable.expirationCheck 0 tableNeg = .ok t ∧ t.item.lookup 1 = none :=
  ⟨rfl, rfl, rfl, by decide, _, rfl, rfl⟩

/-- C1, amended: started with the lock free, expirationCheck returns, and an
item that was in the table is removed if and only if its lifeSpan is not
zero and now - accessOn >= lifeSpan; every other item is still in the table
under its key with the same value, and no item is added. -/
theorem expirationCheck_removes_exactly_expired (t : CacheTable) (now : Time)
    (hmu : t.mu = ⟨0, false⟩) :
    ∃ t2, CacheTable.expirationCheck now t = .ok t2 ∧
      (∀ k it, t.item.lookup k = some it →
        (it.lifeSpan ≠ 0 ∧ now - it.accessOn ≥ it.lifeSpan → t2.item.lookup k = none) ∧
        (¬ (it.lifeSpan ≠ 0 ∧ now - it.accessOn ≥ it.lifeSpan) →
          t2.item.lookup k = some it)) ∧
      (∀ k, t.item.lookup k = none → t2.item.lookup k = none) := by
  obtain ⟨m, c, hrun, hm⟩ := CacheTable.expirationCheck_free now t hmu
  refine ⟨_, hrun, ?_, ?_⟩
  · intro k it hl
    have := hm k
    rw [hl] at this
    constructor
    · intro h
      simpa [Option.filter, CacheTable.expired, h.1, h.2] using this
    · intro h
      have he : CacheTable.expired now it = false := by
        simp only [CacheTable.expired, Bool.and_eq_false_iff, decide_eq_false_iff_not]
        tauto
      simpa [Option.filter, he] using this
  · intro k hl
    have := hm k
    rw [hl] at this
    simpa [Option.filter] using this

/-- The amended C1 at `tableThree`, swept at time 12. -/
theorem expirationCheck_removes_exactly_expired_witness :
    tableThree.mu = ⟨0, false⟩ ∧
    ∃ t2, CacheTable.expirationCheck 12 tableThree = .ok t2 ∧
      (∀ k it, tableThree.item.lookup k = some it →
        (it.lifeSpan ≠ 0 ∧ 12 - it.accessOn ≥ it.lifeSpan → t2.item.lookup k = none) ∧
        (¬ (it.lifeSpan ≠ 0 ∧ 12 - it.accessOn ≥ it.lifeSpan) →
          t2.item.lookup k = some it)) ∧
      (∀ k, tableThree.item.lookup k = none → t2.item.lookup k = none) :=
  ⟨rfl, expirationCheck_removes_exactly_expired tableThree 12 rfl⟩

/-! ## C2: the wake-up the sweep arms -/

/-- C2: started with the lock free, at a time `now` that is not earlier than
the last access of any item with a negative lifeSpan (no clock reading is
earlier than a previous one), expirationCheck returns with cleanupInterval
equal to the minimum of
lifeSpan - (now - accessOn) over the surviving items with positive lifeSpan
(a lower bound that one of them attains), equal to 0 exactly when no
surviving item has a positive lifeSpan, and with a timer armed, for that
duration, if and only if the value is positive. -/
theorem expirationCheck_cleanupInterval (t : CacheTable) (now : Time)
    (hmu : t.mu = ⟨0, false⟩)
    (hclock : ∀ k it, t.item.lookup k = some it → it.lifeSpan < 0 → it.accessOn ≤ now) :
    ∃ t2, CacheTable.expirationCheck now t = .ok t2 ∧
      (∀ k it, t2.item.lookup k = some it → 0 < it.lifeSpan →
        t2.cleanupInterval ≤ it.lifeSpan - (now - it.accessOn)) ∧
      ((∃ k it, t2.item.lookup k = some it ∧ 0 < it.lifeSpan) →
        ∃ k it, t2.item.lookup k = some it ∧ 0 < it.lifeSpan ∧
          t2.cleanupInterval = it.lifeSpan - (now - it.accessOn)) ∧
      (t2.cleanupInterval = 0 ↔ ¬ ∃ k it, t2.item.lookup k = some it ∧ 0 < it.lifeSpan) ∧
      (0 < t2.cleanupInterval → t2.cleanupTimer = some ⟨t2.cleanupInterval, true⟩) ∧
      (¬ 0 < t2.cleanupInterval → ∀ d, t2.cleanupTimer ≠ some ⟨d, true⟩) := by
  obtain ⟨m, c, hrun, hm⟩ := CacheTable.expirationCheck_free now t hmu
  obtain ⟨s1, _, s3, s4⟩ := CacheTable.minFold_spec now t.item t.item.keys 0 (le_refl _)
  -- the survivors with positive lifeSpan are the items the sweep found live
  have surv : ∀ k it, m.lookup k = some it →
      t.item.lookup k = some it ∧ (it.lifeSpan ≠ 0 → now - it.accessOn < it.lifeSpan) := by
    intro k it hl
    have h := hm k
    rw [hl] at h
    cases hl2 : t.item.lookup k with
    | none => rw [hl2] at h; simp [Option.filter] at h
    | some it2 =>
      rw [hl2] at h
      by_cases he : CacheTable.expired now it2 = true
      · simp [Option.filter, he] at h
      · simp only [Option.filter, he, Bool.not_eq_true, Bool.not_false, if_true,
          Bool.not_eq_true'] at h
        simp only [Bool.not_eq_true] at he
        simp only [he, Bool.not_false, if_true, Option.some.injEq] at h
        subst h
        refine ⟨rfl, fun h0 => ?_⟩
        simp only [CacheTable.expired, Bool.and_eq_false_iff, decide_eq_false_iff_not] at he
        rcases he with he | he
        · exact absurd h0 he
        · exact not_le.mp he
  have live : ∀ k it, t.item.lookup k = some it → it.lifeSpan ≠ 0 →
      now - it.accessOn < it.lifeSpan → m.lookup k = some it ∧ 0 < it.lifeSpan := by
    intro k it hl h0 h1
    have h := hm k
    rw [hl] at h
    have he : CacheTable.expired now it = false := by
      simp only [CacheTable.expired, Bool.and_eq_false_iff, decide_eq_false_iff_not]
      exact Or.inr (not_le.mpr h1)
    refine ⟨by simpa [Option.filter, he] using h, ?_⟩
    by_contra hneg
    have hlt : it.lifeSpan < 0 := lt_of_le_of_ne (not_lt.mp hneg) h0
    have hc := hclock k it hl hlt
    simp only [Duration, Time] at *
    omega
  have hkeys : ∀ k it, t.item.lookup k = some it → k ∈ t.item.keys := by
    intro k it hl
    exact AList.mem_keys.mp (AList.lookup_isSome.mp (by simp [hl]))
  have hS : 0 ≤ CacheTable.sweepMin now t.item := s1
  refine ⟨_, hrun, ?_, ?_, ?_, ?_, ?_⟩
  · intro k it hl hpos
    obtain ⟨h1, h2⟩ := surv k it hl
    exact (s3 k (hkeys k it h1) it h1 (ne_of_gt hpos) (h2 (ne_of_gt hpos))).2
  · rintro ⟨k, it, hl, hpos⟩
    obtain ⟨h1, h2⟩ := surv k it hl
    have hp := (s3 k (hkeys k it h1) it h1 (ne_of_gt hpos) (h2 (ne_of_gt hpos))).1
    rcases s4 with s4 | ⟨k2, _, it2, hl2, h0, h3, he⟩
    · exact absurd s4 (ne_of_gt hp)
    · obtain ⟨h4, h5⟩ := live k2 it2 hl2 h0 h3
      exact ⟨k2, it2, h4, h5, he⟩
  · constructor
    · rintro h0 ⟨k, it, hl, hpos⟩
      obtain ⟨h1, h2⟩ := surv k it hl
      have hp := (s3 k (hkeys k it h1) it h1 (ne_of_gt hpos) (h2 (ne_of_gt hpos))).1
      exact absurd h0 (ne_of_gt hp)
    · intro hno
      rcases s4 with s4 | ⟨k2, _, it2, hl2, h0, h3, _⟩
      · exact s4
      · obtain ⟨h4, h5⟩ := live k2 it2 hl2 h0 h3
        exact absurd ⟨k2, it2, h4, h5⟩ hno
  · intro hpos
    have hpos2 : CacheTable.sweepMin now t.item > 0 := hpos
    simp [hpos2]
  · intro hpos d
    have hpos2 : ¬ CacheTable.sweepMin now t.item > 0 := hpos
    simp only [hpos2, if_false]
    cases t.cleanupTimer with
    | none => simp
    | some tm => simp [Timer.Stop]

/-- C2 at `tableThree`, swept at time 12. -/
theorem expirationCheck_cleanupInterval_witness :
    (tableThree.mu = ⟨0, false⟩ ∧
      ∀ k it, tableThree.item.lookup k = some it → it.lifeSpan < 0 → it.accessOn ≤ 12) ∧
    ∃ t2, CacheTable.expirationCheck 12 tableThree = .ok t2 ∧
      (∀ k it, t2.item.lookup k = some it → 0 < it.lifeSpan →
        t2.cleanupInterval ≤ it.lifeSpan - (12 - it.accessOn)) ∧
      ((∃ k it, t2.item.lookup k = some it ∧ 0 < it.lifeSpan) →
        ∃ k it, t2.item.lookup k = some it ∧ 0 < it.lifeSpan ∧
          t2.cleanupInterval = it.lifeSpan - (12 - it.accessOn)) ∧
      (t2.cleanupInterval = 0 ↔ ¬ ∃ k it, t2.item.lookup k = some it ∧ 0 < it.lifeSpan) ∧
      (0 < t2.cleanupInterval → t2.cleanupTimer = some ⟨t2.cleanupInterval, true⟩) ∧
      (¬ 0 < t2.cleanupInterval → ∀ d, t2.cleanupTimer ≠ some ⟨d, true⟩) :=
  have hclock : ∀ k it, tableThree.item.lookup k = some it → it.lifeSpan < 0 →
      it.accessOn ≤ 12 := by
    intro k it hl _
    have hk : k = 1 ∨ k = 2 ∨ k = 3 := by
      have hmem : k ∈ tableThree.item.keys :=
        AList.mem_keys.mp (AList.lookup_isSome.mp (by simp [hl]))
      simpa [tableThree, Cache] using hmem
    rcases hk with rfl | rfl | rfl <;>
    · have h2 : some it = _ := hl.symm.trans (by rfl)
      cases h2
      decide
  ⟨⟨rfl, hclock⟩, expirationCheck_cleanupInterval tableThree 12 rfl hclock⟩

/-! ## Value -/

namespace CacheTable

theorem with_mu_self (t : CacheTable) (mu : RWMutex) (h : t.mu = mu) :
    { t with mu := mu } = t := by
  cases t
  cases h
  rfl

theorem Value_hit (now nowAdd nowSweep : Time) (key : Key) (t : CacheTable) (r : CacheItem)
    (hmu : t.mu = ⟨0, false⟩) (hl : t.item.lookup key = some r) :
    Value now nowAdd nowSweep key t = .ok ((some (CacheItem.KeepAlive now r), none),
      { t with item := t.item.insert key (CacheItem.KeepAlive now r) }) := by
  unfold Value
  simp only [RLock, hmu, bind, Except.bind]
  simp only [Bool.false_eq_true, if_false, hl]
  simp [itemRLock, itemRUnlock, RUnlock, pure, Except.pure, hmu]

theorem Value_miss_none (now nowAdd nowSweep : Time) (key : Key) (t : CacheTable)
    (hmu : t.mu = ⟨0, false⟩) (hl : t.item.lookup key = none) (hf : t.loadData = none) :
    Value now nowAdd nowSweep key t = .ok ((none, some .ErrKeyNotFound), t) := by
  unfold Value
  simp only [RLock, hmu, bind, Except.bind]
  simp only [Bool.false_eq_true, if_false, hl, hf]
  simp only [RUnlock, pure, Except.pure]
  cases t
  simp_all

theorem Value_miss_nil (now nowAdd nowSweep : Time) (key : Key) (t : CacheTable)
    (f : Key → Option CacheItem)
    (hmu : t.mu = ⟨0, false⟩) (hl : t.item.lookup key = none) (hf : t.loadData = some f)
    (hnil : f key = none) :
    Value now nowAdd nowSweep key t = .ok ((none, some .ErrKeyNotFoundOrLoadable),
      { t with calls := t.calls ++ [⟨.loadData, 0, key, ⟨1, false⟩, t.itemRLocks, false⟩] }) := by
  unfold Value
  simp only [RLock, hmu, bind, Except.bind]
  simp only [Bool.false_eq_true, if_false, hl, hf, hnil]
  simp [RUnlock, pure, Except.pure, hmu, call, hl]

theorem Value_miss_loaded (now nowAdd nowSweep : Time) (key : Key) (t : CacheTable)
    (f : Key → Option CacheItem) (item : CacheItem)
    (hmu : t.mu = ⟨0, false⟩) (hl : t.item.lookup key = none) (hf : t.loadData = some f)
    (hitem : f key = some item) :
    Value now nowAdd nowSweep key t = .error .deadlock := by
  unfold Value
  simp only [RLock, hmu, bind, Except.bind]
  simp only [Bool.false_eq_true, if_false, hl, hf, hitem]
  simp [Add, Lock, call, bind, Except.bind]

end CacheTable

/-! ## C3: an item accessed in time stays -/

theorem fresh_take (d : Duration) (steps : List Step) :
    ∀ (last : Time) (n : Nat), fresh d last steps → fresh d last (steps.take n) := by
  induction steps with
  | nil => intro last n _; simp [fresh]
  | cons s steps ih =>
    intro last n h
    cases n with
    | zero => simp [fresh]
    | succ n =>
      exact ⟨h.1, ih _ n h.2⟩

theorem runStep_fresh (key : Key) (t : CacheTable) (it : CacheItem) (s : Step)
    (hmu : t.mu = ⟨0, false⟩) (hl : t.item.lookup key = some it) (_hd : 0 < it.lifeSpan)
    (hs : s.now - it.accessOn < it.lifeSpan) :
    ∃ t2 it2, runStep key t s = .ok t2 ∧ t2.mu = ⟨0, false⟩ ∧
      t2.item.lookup key = some it2 ∧ it2.lifeSpan = it.lifeSpan ∧
      it2.accessOn = s.access it.accessOn := by
  cases s with
  | value now =>
    refine ⟨{ t with item := t.item.insert key (CacheItem.KeepAlive now it) },
      CacheItem.KeepAlive now it, ?_, ?_, ?_, rfl, rfl⟩
    · simp only [runStep, CacheTable.Value_hit now now now key t it hmu hl, bind, Except.bind]
      rfl
    · exact hmu
    · exact AList.lookup_insert _
  | sweep now =>
    obtain ⟨m, c, hrun, hm⟩ := CacheTable.expirationCheck_free now t hmu
    refine ⟨_, it, hrun, hmu, ?_, rfl, rfl⟩
    have he : CacheTable.expired now it = false := by
      simp only [CacheTable.expired, Bool.and_eq_false_iff, decide_eq_false_iff_not]
      exact Or.inr (not_le.mpr hs)
    have := hm key
    rw [hl] at this
    simpa [Option.filter, he] using this

theorem runSteps_fresh (key : Key) (steps : List Step) :
    ∀ (t : CacheTable) (it : CacheItem), t.mu = ⟨0, false⟩ →
      t.item.lookup key = some it → 0 < it.lifeSpan →
      fresh it.lifeSpan it.accessOn steps →
      ∃ t2 it2, runSteps key steps t = .ok t2 ∧ t2.mu = ⟨0, false⟩ ∧
        t2.item.lookup key = some it2 := by
  induction steps with
  | nil => intro t it hmu hl _ _; exact ⟨t, it, rfl, hmu, hl⟩
  | cons s steps ih =>
    intro t it hmu hl hd hf
    obtain ⟨t1, it1, hrun, hmu1, hl1, hd1, ha1⟩ := runStep_fresh key t it s hmu hl hd hf.1
    have hf1 : fresh it1.lifeSpan it1.accessOn steps := by
      rw [hd1, ha1]
      exact hf.2
    obtain ⟨t2, it2, hrun2, hmu2, hl2⟩ := ih t1 it1 hmu1 hl1 (hd1 ▸ hd) hf1
    refine ⟨t2, it2, ?_, hmu2, hl2⟩
    simp only [runSteps, List.foldlM_cons, hrun, bind, Except.bind]
    exact hrun2

/-- C3: let key k hold an item with lifeSpan d > 0 in a table whose lock is
free, and let a sequence of Value(k) calls and expirationCheck sweeps be
such that each step occurs less than d after the most recent Value(k) step
(or after the item's accessOn, which is its insertion time when it has not
been hit).  Then every step returns, each Value(k) being a hit, and k is
still present after every step: after each initial part of the sequence. -/
theorem item_accessed_in_time_stays (t : CacheTable) (k : Key) (it : CacheItem)
    (steps : List Step) (hmu : t.mu = ⟨0, false⟩) (hl : t.item.lookup k = some it)
    (hd : 0 < it.lifeSpan) (hf : fresh it.lifeSpan it.accessOn steps) (n : Nat) :
    ∃ t2 it2, runSteps k (steps.take n) t = .ok t2 ∧ t2.item.lookup k = some it2 := by
  obtain ⟨t2, it2, hrun, _, hl2⟩ :=
    runSteps_fresh k (steps.take n) t it hmu hl hd (fresh_take _ steps _ n hf)
  exact ⟨t2, it2, hrun, hl2⟩

/-- C3 at `tableThree` and key 1 (lifeSpan 10, inserted at time 0): a sweep at
time 9, a hit at 9, sweeps at 12 and 18, a hit at 18 and a sweep at 27. -/
theorem item_accessed_in_time_stays_witness :
    (tableThree.mu = ⟨0, false⟩ ∧
      tableThree.item.lookup 1 = some (NewCacheItem 0 1 100 10) ∧
      0 < (NewCacheItem 0 1 100 10).lifeSpan ∧
      fresh (NewCacheItem 0 1 100 10).lifeSpan (NewCacheItem 0 1 100 10).accessOn
        [.sweep 9, .value 9, .sweep 12, .sweep 18, .value 18, .sweep 27]) ∧
    ∃ t2 it2, runSteps 1
        (([.sweep 9, .value 9, .sweep 12, .sweep 18, .value 18, .sweep 27] : List Step).take 6)
        tableThree = .ok t2 ∧
      t2.item.lookup 1 = some it2 :=
  have hf : fresh (NewCacheItem 0 1 100 10).lifeSpan (NewCacheItem 0 1 100 10).accessOn
      [.sweep 9, .value 9, .sweep 12, .sweep 18, .value 18, .sweep 27] := by
    simp only [fresh, NewCacheItem, Step.now, Step.access]
    decide
  ⟨⟨rfl, rfl, by decide, hf⟩,
    item_accessed_in_time_stays tableThree 1 (NewCacheItem 0 1 100 10) _ rfl rfl
      (by decide) hf 6⟩

/-! ## C4, C5: Value on a miss -/

/-- C4: for a table whose lock is free and a key absent from it, Value(key)
returns (nil, ErrKeyNotFound) and leaves the table as it was when no loader
is configured; it returns (nil, ErrKeyNotFoundOrLoadable), having only
called the loader, when the loader yields nil for the key; and whenever it
returns, the item is nil, the map is unchanged (so is Count), and the error
is ErrKeyNotFoundOrLoadable exactly when a loader is configured and yields
nil, ErrKeyNotFound exactly when no loader is configured. -/
theorem Value_miss_fails (t : CacheTable) (now nowAdd nowSweep : Time) (key : Key)
    (hmu : t.mu = ⟨0, false⟩) (hl : t.item.lookup key = none) :
    (t.loadData = none →
      CacheTable.Value now nowAdd nowSweep key t = .ok ((none, some .ErrKeyNotFound), t)) ∧
    (∀ f, t.loadData = some f → f key = none →
      CacheTable.Value now nowAdd nowSweep key t =
        .ok ((none, some .ErrKeyNotFoundOrLoadable),
          { t with calls := t.calls ++
              [⟨.loadData, 0, key, ⟨1, false⟩, t.itemRLocks, false⟩] })) ∧
    (∀ r t2, CacheTable.Value now nowAdd nowSweep key t = .ok (r, t2) →
      r.1 = none ∧ t2.item = t.item ∧
      (∃ n, CacheTable.Count t = .ok (n, t) ∧ CacheTable.Count t2 = .ok (n, t2)) ∧
      (r.2 = some .ErrKeyNotFoundOrLoadable ↔ ∃ f, t.loadData = some f ∧ f key = none) ∧
      (r.2 = some .ErrKeyNotFound ↔ t.loadData = none)) := by
  have hcount : ∀ t2 : CacheTable, t2.mu = ⟨0, false⟩ →
      CacheTable.Count t2 = .ok (t2.item.entries.length, t2) := by
    intro t2 h2
    simp only [CacheTable.Count, CacheTable.RLock, CacheTable.RUnlock, h2, bind, Except.bind,
      pure, Except.pure]
    simp only [Bool.false_eq_true, if_false]
    simp only [true_and, Nat.lt_add_one, if_true, Nat.add_sub_cancel]
    rw [← h2, CacheTable.with_mu_self t2 _ rfl]
  refine ⟨CacheTable.Value_miss_none now nowAdd nowSweep key t hmu hl,
    fun f hf hnil => CacheTable.Value_miss_nil now nowAdd nowSweep key t f hmu hl hf hnil, ?_⟩
  intro r t2 hrun
  cases hload : t.loadData with
  | none =>
    rw [CacheTable.Value_miss_none now nowAdd nowSweep key t hmu hl hload] at hrun
    cases hrun
    exact ⟨rfl, rfl, ⟨_, hcount t hmu, hcount t hmu⟩, by simp, by simp⟩
  | some f =>
    cases hitem : f key with
    | none =>
      rw [CacheTable.Value_miss_nil now nowAdd nowSweep key t f hmu hl hload hitem] at hrun
      cases hrun
      exact ⟨rfl, rfl, ⟨_, hcount t hmu, hcount _ hmu⟩, by simp [hitem], by simp⟩
    | some item =>
      rw [CacheTable.Value_miss_loaded now nowAdd nowSweep key t f item hmu hl hload hitem]
        at hrun
      cases hrun

/-- C4 at `tableLoader` and key 2, where the loader yields nothing. -/
theorem Value_miss_fails_witness :
    (tableLoader.mu = ⟨0, false⟩ ∧ tableLoader.item.lookup 2 = none) ∧
    ((tableLoader.loadData = none →
      CacheTable.Value 0 0 0 2 tableLoader = .ok ((none, some .ErrKeyNotFound), tableLoader)) ∧
    (∀ f, tableLoader.loadData = some f → f 2 = none →
      CacheTable.Value 0 0 0 2 tableLoader =
        .ok ((none, some .ErrKeyNotFoundOrLoadable),
          { tableLoader with calls := tableLoader.calls ++
              [⟨.loadData, 0, 2, ⟨1, false⟩, tableLoader.itemRLocks, false⟩] })) ∧
    (∀ r t2, CacheTable.Value 0 0 0 2 tableLoader = .ok (r, t2) →
      r.1 = none ∧ t2.item = tableLoader.item ∧
      (∃ n, CacheTable.Count tableLoader = .ok (n, tableLoader) ∧
        CacheTable.Count t2 = .ok (n, t2)) ∧
      (r.2 = some .ErrKeyNotFoundOrLoadable ↔
        ∃ f, tableLoader.loadData = some f ∧ f 2 = none) ∧
      (r.2 = some .ErrKeyNotFound ↔ tableLoader.loadData = none))) :=
  ⟨⟨rfl, rfl⟩, Value_miss_fails tableLoader 0 0 0 2 rfl rfl⟩

/-- C5 fails on the code: at `tableLoader`, free and empty, the loader yields
an item for key 1, and Value(1) does not return.  It calls Add while still
holding the read lock it took on entry, and Add blocks on table.Lock(). -/
theorem Value_loader_item_blocks :
    tableLoader.mu = ⟨0, false⟩ ∧ tableLoader.item.lookup 1 = none ∧
    (tableLoader.loadData.bind fun f => f 1) = some (NewCacheItem 0 1 5 0) ∧
    CacheTable.Value 0 0 0 1 tableLoader = .error .deadlock :=
  ⟨rfl, rfl, rfl, rfl⟩

/-! ## C6: Value on a hit -/

/-- C6: for a table whose lock is free and a key present in it, Value(key)
returns the stored item with a nil error; that item has accessCount one
more than before and accessOn equal to the current time, and its key, data,
lifeSpan, createOn and callbacks are unchanged; the map holds it under key,
every other key maps to what it did, the key set is the same, and no other
field of the table changes: no user function, the loader included, is
called. -/
theorem Value_hit_frame (t : CacheTable) (now nowAdd nowSweep : Time) (key : Key)
    (r : CacheItem) (hmu : t.mu = ⟨0, false⟩) (hl : t.item.lookup key = some r) :
    ∃ r2 t2, CacheTable.Value now nowAdd nowSweep key t = .ok ((some r2, none), t2) ∧
      t2.item.lookup key = some r2 ∧
      r2.accessCount = r.accessCount + 1 ∧ r2.accessOn = now ∧
      r2.key = r.key ∧ r2.data = r.data ∧ r2.lifeSpan = r.lifeSpan ∧
      r2.createOn = r.createOn ∧ r2.aboutToExpire = r.aboutToExpire ∧
      (∀ k, k ≠ key → t2.item.lookup k = t.item.lookup k) ∧
      (∀ k, k ∈ t2.item ↔ k ∈ t.item) ∧
      t2 = { t with item := t2.item } ∧ t2.calls = t.calls := by
  refine ⟨CacheItem.KeepAlive now r,
    { t with item := t.item.insert key (CacheItem.KeepAlive now r) },
    CacheTable.Value_hit now nowAdd nowSweep key t r hmu hl, AList.lookup_insert _,
    rfl, rfl, rfl, rfl, rfl, rfl, rfl, ?_, ?_, rfl, rfl⟩
  · intro k hk
    exact AList.lookup_insert_ne hk
  · intro k
    have hkey : key ∈ t.item := AList.lookup_isSome.mp (by simp [hl])
    constructor
    · intro h
      rcases (AList.mem_insert _).mp h with rfl | h
      · exact hkey
      · exact h
    · intro h
      exact (AList.mem_insert _).mpr (Or.inr h)

/-- C6 at `tableThree`, key 1 and time 4. -/
theorem Value_hit_frame_witness :
    (tableThree.mu = ⟨0, false⟩ ∧
      tableThree.item.lookup 1 = some (NewCacheItem 0 1 100 10)) ∧
    ∃ r2 t2, CacheTable.Value 4 4 4 1 tableThree = .ok ((some r2, none), t2) ∧
      t2.item.lookup 1 = some r2 ∧
      r2.accessCount = (NewCacheItem 0 1 100 10).accessCount + 1 ∧ r2.accessOn = 4 ∧
      r2.key = (NewCacheItem 0 1 100 10).key ∧ r2.data = (NewCacheItem 0 1 100 10).data ∧
      r2.lifeSpan = (NewCacheItem 0 1 100 10).lifeSpan ∧
      r2.createOn = (NewCacheItem 0 1 100 10).createOn ∧
      r2.aboutToExpire = (NewCacheItem 0 1 100 10).aboutToExpire ∧
      (∀ k, k ≠ 1 → t2.item.lookup k = tableThree.item.lookup k) ∧
      (∀ k, k ∈ t2.item ↔ k ∈ tableThree.item) ∧
      t2 = { tableThree with item := t2.item } ∧ t2.calls = tableThree.calls :=
  ⟨⟨rfl, rfl⟩, Value_hit_frame tableThree 4 4 4 1 (NewCacheItem 0 1 100 10) rfl rfl⟩

/-! ## Add and NotFoundAdd -/

namespace CacheTable

theorem callAll_mu (hook : Hook) (fns : List Nat) (key : Key) (t : CacheTable) :
    (callAll hook fns key t).mu = t.mu := by
  rw [callAll_eq]

theorem callAll_item (hook : Hook) (fns : List Nat) (key : Key) (t : CacheTable) :
    (callAll hook fns key t).item = t.item := by
  rw [callAll_eq]

theorem addInternal_held (nowSweep : Time) (item : CacheItem) (t : CacheTable)
    (hmu : t.mu = ⟨0, true⟩) :
    addInternal nowSweep item t =
      if item.lifeSpan > 0 ∧ (t.cleanupInterval = 0 ∨ item.lifeSpan < t.cleanupInterval) then
        expirationCheck nowSweep (callAll .addedItem t.addedItem item.key
          { t with item := t.item.insert item.key item, mu := ⟨0, false⟩ })
      else
        .ok (callAll .addedItem t.addedItem item.key
          { t with item := t.item.insert item.key item, mu := ⟨0, false⟩ }) := by
  unfold addInternal
  simp only [Unlock, hmu, bind, Except.bind, pure, Except.pure, if_true]

theorem addInternal_stored (nowSweep : Time) (item : CacheItem) (t : CacheTable)
    (hmu : t.mu = ⟨0, true⟩)
    (htime : 0 < item.lifeSpan → nowSweep - item.accessOn < item.lifeSpan) :
    ∃ t2, addInternal nowSweep item t = .ok t2 ∧ t2.mu = ⟨0, false⟩ ∧
      t2.item.lookup item.key = some item := by
  rw [addInternal_held nowSweep item t hmu]
  split_ifs with h
  · obtain ⟨m, c, hrun, hm⟩ := expirationCheck_free nowSweep
      (callAll .addedItem t.addedItem item.key
        { t with item := t.item.insert item.key item, mu := ⟨0, false⟩ })
      (by rw [callAll_mu])
    refine ⟨_, hrun, by rw [callAll_mu], ?_⟩
    have he : expired nowSweep item = false := by
      simp only [expired, Bool.and_eq_false_iff, decide_eq_false_iff_not]
      exact Or.inr (not_le.mpr (htime h.1))
    have := hm item.key
    rw [callAll_item] at this
    simpa [AList.lookup_insert, Option.filter, he] using this
  · refine ⟨_, rfl, by rw [callAll_mu], ?_⟩
    rw [callAll_item]
    exact AList.lookup_insert _

end CacheTable

/-- C7, as stated, fails: on `tableThree`, whose lock is free and where
nothing is armed, Add(1, 1, 9) makes its item at time 3 and runs its sweep
at time 4, when the lifeSpan 1 of the new item has elapsed; Add returns the
item, and the table no longer maps key 1 to anything. -/
theorem Add_sweeps_its_own_item :
    tableThree.mu = ⟨0, false⟩ ∧
    ∃ item t2, CacheTable.Add 3 4 1 1 9 tableThree = .ok (item, t2) ∧
      item = NewCacheItem 3 1 9 1 ∧ t2.item.lookup 1 = none :=
  ⟨rfl, _, _, rfl, rfl, rfl⟩

/-- C7, amended: for a table whose lock is free, Add(key, lifeSpan, data)
returns an item carrying exactly that key, data and lifeSpan, with
accessCount 0 and createOn equal to accessOn, and afterwards the table maps
key to the returned item, whether or not key was present before, provided
that, when lifeSpan is positive, the sweep that Add may run reads the clock
less than lifeSpan after the item was made. -/
theorem Add_stores_item (t : CacheTable) (now nowSweep : Time) (key : Key)
    (lifeSpan : Duration) (data : Data) (hmu : t.mu = ⟨0, false⟩)
    (htime : 0 < lifeSpan → nowSweep - now < lifeSpan) :
    ∃ item t2, CacheTable.Add now nowSweep key lifeSpan data t = .ok (item, t2) ∧
      item.key = key ∧ item.data = data ∧ item.lifeSpan = lifeSpan ∧
      item.accessCount = 0 ∧ item.createOn = item.accessOn ∧
      t2.item.lookup key = some item := by
  obtain ⟨t2, hrun, _, hl⟩ := CacheTable.addInternal_stored nowSweep
    (NewCacheItem now key data lifeSpan) { t with mu := ⟨0, true⟩ } rfl htime
  refine ⟨NewCacheItem now key data lifeSpan, t2, ?_, rfl, rfl, rfl, rfl, rfl, hl⟩
  simp only [CacheTable.Add, CacheTable.Lock_free t hmu, bind, Except.bind, hrun]
  rfl

/-- The amended C7 at `tableThree`: Add(1, 5, 9) at time 3 overwrites the entry under
key 1, and Add runs its sweep at time 4. -/
theorem Add_stores_item_witness :
    (tableThree.mu = ⟨0, false⟩ ∧ ((0 : Duration) < 5 → (4 : Time) - 3 < (5 : Duration))) ∧
    ∃ item t2, CacheTable.Add 3 4 1 5 9 tableThree = .ok (item, t2) ∧
      item.key = 1 ∧ item.data = 9 ∧ item.lifeSpan = 5 ∧
      item.accessCount = 0 ∧ item.createOn = item.accessOn ∧
      t2.item.lookup 1 = some item :=
  ⟨⟨rfl, by decide⟩, Add_stores_item tableThree 3 4 1 5 9 rfl (by decide)⟩

/-- C8: for a table whose lock is free and that already holds key k,
NotFoundAdd(k, data, lifespan) returns false and the table afterwards is
the table before: the item under k and every other item, cleanupInterval
and the timer are unchanged, and no call of a user function is recorded. -/
theorem NotFoundAdd_present_noop (t : CacheTable) (now nowSweep : Time) (k : Key)
    (data : Data) (lifespan : Duration) (r : CacheItem) (hmu : t.mu = ⟨0, false⟩)
    (hl : t.item.lookup k = some r) :
    CacheTable.NotFoundAdd now nowSweep k data lifespan t = .ok (false, t) := by
  simp only [CacheTable.NotFoundAdd, CacheTable.Lock_free t hmu, bind, Except.bind, hl,
    Option.isSome_some, if_true, CacheTable.Unlock, pure, Except.pure]
  rw [← hmu, CacheTable.with_mu_self t _ rfl]

/-- C8 at `tableThree` and key 2. -/
theorem NotFoundAdd_present_noop_witness :
    (tableThree.mu = ⟨0, false⟩ ∧
      tableThree.item.lookup 2 = some (NewCacheItem 0 2 200 25)) ∧
    CacheTable.NotFoundAdd 3 3 2 1 50 tableThree = .ok (false, tableThree) :=
  ⟨⟨rfl, rfl⟩, NotFoundAdd_present_noop tableThree 3 3 2 1 50 _ rfl rfl⟩

/-- C9, as stated, fails: on the new table, which is free and does not hold
key 4, NotFoundAdd(4, 1, 1) makes its item at time 0 and runs its sweep at
time 1, when the lifespan 1 of the new item has elapsed; it returns true,
and afterwards key 4 is not in the map and Exists(4) is false. -/
theorem NotFoundAdd_sweeps_its_own_item :
    (Cache "t").mu = ⟨0, false⟩ ∧ (Cache "t").item.lookup 4 = none ∧
    ∃ t2, CacheTable.NotFoundAdd 0 1 4 1 1 (Cache "t") = .ok (true, t2) ∧
      t2.item.lookup 4 = none ∧ CacheTable.Exists 4 t2 = .ok (false, t2) :=
  ⟨rfl, rfl, _, rfl, rfl, rfl⟩

/-- C9, amended: for a table whose lock is free and that does not hold key k,
NotFoundAdd(k, data, lifespan) returns true, and afterwards Exists(k) is
true and the item stored under k has that data and lifespan and accessCount
0, provided that, when lifespan is positive, the sweep that the call may
run reads the clock less than lifespan after the item was made. -/
theorem NotFoundAdd_absent_stores (t : CacheTable) (now nowSweep : Time) (k : Key)
    (data : Data) (lifespan : Duration) (hmu : t.mu = ⟨0, false⟩)
    (hl : t.item.lookup k = none)
    (htime : 0 < lifespan → nowSweep - now < lifespan) :
    ∃ t2 it, CacheTable.NotFoundAdd now nowSweep k data lifespan t = .ok (true, t2) ∧
      CacheTable.Exists k t2 = .ok (true, t2) ∧
      t2.item.lookup k = some it ∧ it.data = data ∧ it.lifeSpan = lifespan ∧
      it.accessCount = 0 := by
  obtain ⟨t2, hrun, hmu2, hl2⟩ := CacheTable.addInternal_stored nowSweep
    (NewCacheItem now k data lifespan) { t with mu := ⟨0, true⟩ } rfl htime
  refine ⟨t2, NewCacheItem now k data lifespan, ?_, ?_, hl2, rfl, rfl, rfl⟩
  · simp only [CacheTable.NotFoundAdd, CacheTable.Lock_free t hmu, bind, Except.bind, hl,
      Option.isSome_none, Bool.false_eq_true, if_false, hrun]
    rfl
  · have hl3 : t2.item.lookup k = some (NewCacheItem now k data lifespan) := hl2
    simp only [CacheTable.Exists, CacheTable.RLock, CacheTable.RUnlock, hmu2, bind,
      Except.bind, pure, Except.pure, Bool.false_eq_true, if_false, hl3]
    simp only [true_and, Nat.lt_add_one, if_true, Nat.add_sub_cancel, Option.isSome_some]
    rw [← hmu2, CacheTable.with_mu_self t2 _ rfl]

/-- The amended C9 at `tableThree`: NotFoundAdd(4, 1, 50) at time 3, its sweep
at time 4. -/
theorem NotFoundAdd_absent_stores_witness :
    (tableThree.mu = ⟨0, false⟩ ∧ tableThree.item.lookup 4 = none ∧
      ((0 : Duration) < 50 → (4 : Time) - 3 < (50 : Duration))) ∧
    ∃ t2 it, CacheTable.NotFoundAdd 3 4 4 1 50 tableThree = .ok (true, t2) ∧
      CacheTable.Exists 4 t2 = .ok (true, t2) ∧
      t2.item.lookup 4 = some it ∧ it.data = 1 ∧ it.lifeSpan = 50 ∧
      it.accessCount = 0 :=
  ⟨⟨rfl, rfl, by decide⟩, NotFoundAdd_absent_stores tableThree 3 4 4 1 50 rfl rfl (by decide)⟩

/-! ## C10: Delete on a missing key -/

/-- C10: for a table whose lock is free and a key absent from it, Delete(key)
returns ErrKeyNotFound with a nil item and the table afterwards is the
table before: no call of a user function is recorded, the map is the same,
and Count() returns the same number before and after. -/
theorem Delete_absent (t : CacheTable) (key : Key) (hmu : t.mu = ⟨0, false⟩)
    (hl : t.item.lookup key = none) :
    CacheTable.Delete key t = .ok ((some .ErrKeyNotFound, none), t) ∧
    ∃ n, CacheTable.Count t = .ok (n, t) := by
  constructor
  · simp only [CacheTable.Delete, CacheTable.Lock_free t hmu, bind, Except.bind,
      CacheTable.Unlock, if_true, CacheTable.deleteInternal, hl, pure, Except.pure]
    rw [← hmu, CacheTable.with_mu_self t _ rfl]
  · refine ⟨t.item.entries.length, ?_⟩
    simp only [CacheTable.Count, CacheTable.RLock, CacheTable.RUnlock, hmu, bind, Except.bind,
      pure, Except.pure, Bool.false_eq_true, if_false]
    simp only [true_and, Nat.lt_add_one, if_true, Nat.add_sub_cancel]
    rw [← hmu, CacheTable.with_mu_self t _ rfl]

/-- C10 at `tableThree` and key 9. -/
theorem Delete_absent_witness :
    (tableThree.mu = ⟨0, false⟩ ∧ tableThree.item.lookup 9 = none) ∧
    CacheTable.Delete 9 tableThree = .ok ((some .ErrKeyNotFound, none), tableThree) ∧
    ∃ n, CacheTable.Count tableThree = .ok (n, tableThree) :=
  ⟨⟨rfl, rfl⟩, Delete_absent tableThree 9 rfl rfl⟩

/-! ## C11: the callbacks of a removal -/

/-- C11 fails on the code: at `tableHooks`, whose lock is free and which holds
under key 1 an item with the pre-expire callback 9, Delete(1) does not
return (it releases the table lock and deleteInternal releases it again);
and the sweep at time 12, which evicts key 1 through deleteInternal, calls
the table's before-delete callback 7 twice, the second time under the
item's read lock, and never calls the item's own callback 9. -/
theorem removal_skips_item_callbacks :
    tableHooks.mu = ⟨0, false⟩ ∧
    tableHooks.aboutDeleteItem = [7] ∧
    tableHooks.item.lookup 1 =
      some { NewCacheItem 0 1 100 10 with aboutToExpire := [9] } ∧
    CacheTable.Delete 1 tableHooks = .error .unlockOfUnlocked ∧
    ∃ t, CacheTable.expirationCheck 12 tableHooks = .ok t ∧ t.item.lookup 1 = none ∧
      t.calls = [⟨.aboutDeleteItem, 7, 1, ⟨0, false⟩, 0, true⟩,
        ⟨.aboutDeleteItem, 7, 1, ⟨0, false⟩, 1, true⟩] :=
  ⟨rfl, rfl, rfl, rfl, _, rfl, rfl, rfl⟩

/-! ## C12: Flush -/

/-- C12: for a table whose lock is free, Flush() returns, and afterwards the
item map is empty, Count() is 0, cleanupInterval is 0 and no timer is
pending, while the name, the loader, the added-item callbacks and the
before-delete callbacks are what they were before. -/
theorem Flush_empties (t : CacheTable) (hmu : t.mu = ⟨0, false⟩) :
    ∃ t2, CacheTable.Flush t = .ok t2 ∧
      t2.item = ∅ ∧ CacheTable.Count t2 = .ok (0, t2) ∧
      t2.cleanupInterval = 0 ∧ (∀ d, t2.cleanupTimer ≠ some ⟨d, true⟩) ∧
      t2.name = t.name ∧ t2.loadData = t.loadData ∧ t2.addedItem = t.addedItem ∧
      t2.aboutDeleteItem = t.aboutDeleteItem := by
  refine ⟨{ t with
      item := ∅
      cleanupInterval := 0
      cleanupTimer := t.cleanupTimer.map Timer.Stop }, ?_, rfl, ?_, rfl, ?_,
    rfl, rfl, rfl, rfl⟩
  · simp only [CacheTable.Flush, CacheTable.Lock_free t hmu, bind, Except.bind,
      CacheTable.Unlock, if_true]
    rw [← hmu]
  · simp only [CacheTable.Count, CacheTable.RLock, CacheTable.RUnlock, hmu, bind, Except.bind,
      pure, Except.pure, Bool.false_eq_true, if_false]
    simp only [true_and, Nat.lt_add_one, if_true, Nat.add_sub_cancel]
    rw [← hmu]
    rfl
  · intro d
    cases t.cleanupTimer with
    | none => simp
    | some tm => simp [Timer.Stop]

/-- C12 at `tableThree`. -/
theorem Flush_empties_witness :
    tableThree.mu = ⟨0, false⟩ ∧
    ∃ t2, CacheTable.Flush tableThree = .ok t2 ∧
      t2.item = ∅ ∧ CacheTable.Count t2 = .ok (0, t2) ∧
      t2.cleanupInterval = 0 ∧ (∀ d, t2.cleanupTimer ≠ some ⟨d, true⟩) ∧
      t2.name = tableThree.name ∧ t2.loadData = tableThree.loadData ∧
      t2.addedItem = tableThree.addedItem ∧
      t2.aboutDeleteItem = tableThree.aboutDeleteItem :=
  ⟨rfl, Flush_empties tableThree rfl⟩

/-! ## The calls of a sweep -/

namespace CacheTable

theorem deleteCalls_sweepCall (key : Key) (r : CacheItem) (t : CacheTable) :
    ∀ x ∈ deleteCalls key r t, sweepCall t x := by
  intro x hx
  unfold deleteCalls at hx
  rcases List.mem_append.mp hx with h | h
  · obtain ⟨f, hf, rfl⟩ := List.mem_map.mp h
    exact ⟨rfl, hf, rfl, Or.inl rfl, rfl⟩
  · split_ifs at h
    · obtain ⟨f, hf, rfl⟩ := List.mem_map.mp h
      exact ⟨rfl, hf, rfl, Or.inr rfl, rfl⟩
    · exact absurd h (List.not_mem_nil x)

theorem sweepBody_calls (now : Time) (t : CacheTable) (s : Duration) (k : Key)
    (hmu : t.mu = ⟨0, true⟩) :
    ∃ rest, sweepBody now (t, s) k =
        .ok ({ t with item := sweepItems now t.item k, calls := t.calls ++ rest },
          minStep now t.item s k) ∧
      ∀ x ∈ rest, sweepCall t x := by
  have hnil : ∀ x ∈ ([] : List Call), sweepCall t x := fun x hx => absurd hx (List.not_mem_nil x)
  unfold sweepBody sweepItems minStep
  cases hl : t.item.lookup k with
  | none => exact ⟨[], by simp only [List.append_nil]; rfl, hnil⟩
  | some it =>
    simp only [itemRUnlock_itemRLock, bind, Except.bind, pure, Except.pure]
    by_cases h0 : it.lifeSpan = 0
    · refine ⟨[], ?_, hnil⟩
      simp [h0, expired]
    · by_cases h1 : now - it.accessOn ≥ it.lifeSpan
      · refine ⟨deleteCalls k it t, ?_, deleteCalls_sweepCall k it t⟩
        simp [h0, h1, expired, deleteInternal_held k t it hmu hl]
      · refine ⟨[], ?_, hnil⟩
        by_cases h2 : s = 0 ∨ it.lifeSpan - (now - it.accessOn) < s
        · simp [h0, h1, h2, expired]
        · simp [h0, h1, h2, expired]

theorem sweep_loop_calls (now : Time) (ks : List Key) :
    ∀ (t : CacheTable) (s : Duration), t.mu = ⟨0, true⟩ →
      ∃ rest, ks.foldlM (sweepBody now) (t, s) =
          .ok ({ t with item := (ks.foldl (sweepPure now) (t.item, s)).1,
                        calls := t.calls ++ rest },
            (ks.foldl (sweepPure now) (t.item, s)).2) ∧
        ∀ x ∈ rest, sweepCall t x := by
  induction ks with
  | nil =>
    intro t s _
    exact ⟨[], by simp only [List.append_nil]; rfl, fun x hx => absurd hx (List.not_mem_nil x)⟩
  | cons k ks ih =>
    intro t s hmu
    obtain ⟨r1, hc, hq1⟩ := sweepBody_calls now t s k hmu
    obtain ⟨r2, hc2, hq2⟩ := ih { t with item := sweepItems now t.item k, calls := t.calls ++ r1 }
      (minStep now t.item s k) hmu
    refine ⟨r1 ++ r2, ?_, ?_⟩
    · simp only [List.foldlM_cons, hc, bind, Except.bind, List.foldl_cons]
      rw [hc2]
      simp [sweepPure, List.append_assoc]
    · intro x hx
      rcases List.mem_append.mp hx with h | h
      · exact hq1 x h
      · exact hq2 x h

theorem expirationCheck_calls (now : Time) (t : CacheTable) (hmu : t.mu = ⟨0, false⟩) :
    ∃ m rest, expirationCheck now t =
        .ok { t with
          item := m
          calls := t.calls ++ rest
          cleanupInterval := sweepMin now t.item
          cleanupTimer := if sweepMin now t.item > 0 then some ⟨sweepMin now t.item, true⟩
            else t.cleanupTimer.map Timer.Stop } ∧
      (∀ k, m.lookup k = (t.item.lookup k).filter (fun it => !expired now it)) ∧
      ∀ x ∈ rest, sweepCall t x := by
  obtain ⟨m, c, hrun, hm⟩ := expirationCheck_free now t hmu
  obtain ⟨rest, hc, hq⟩ := sweep_loop_calls now t.item.keys
    { t with mu := ⟨0, true⟩, cleanupTimer := t.cleanupTimer.map Timer.Stop } 0 rfl
  refine ⟨m, rest, ?_, hm, hq⟩
  rw [hrun]
  have h2 := hrun
  unfold expirationCheck at h2
  simp only [Lock_free t hmu, bind, Except.bind] at h2
  rw [hc] at h2
  simp only [Unlock] at h2
  split_ifs at h2 <;>
  · have h3 := congrArg (fun r => r.toOption.map CacheTable.calls) h2
    simp only [Except.toOption, Option.map_some', Option.some.injEq] at h3
    have h4 : c = t.calls ++ rest := h3.symm
    rw [h4]

theorem sweep_loop_zero (now : Time) (ks : List Key) (t : CacheTable) (s : Duration)
    (hzero : ∀ k it, t.item.lookup k = some it → it.lifeSpan = 0) :
    ks.foldlM (sweepBody now) (t, s) = .ok (t, s) := by
  induction ks with
  | nil => rfl
  | cons k ks ih =>
    have hk : sweepBody now (t, s) k = .ok (t, s) := by
      unfold sweepBody
      cases hl : t.item.lookup k with
      | none => rfl
      | some it =>
        simp only [itemRUnlock_itemRLock, bind, Except.bind, pure, Except.pure,
          hzero k it hl, if_true]
    simp only [List.foldlM_cons, hk, bind, Except.bind]
    exact ih

end CacheTable

/-! ## C17: a stale sweep -/

/-- C17, as stated, fails: the table `tableNeg`, whose lock is free, holds no
item with a positive lifeSpan, and the sweep at time 5 removes the item
under key 1, whose lifeSpan is -1. -/
theorem stale_sweep_removes_negative_lifeSpan :
    tableNeg.mu = ⟨0, false⟩ ∧
    (∀ k it, tableNeg.item.lookup k = some it → ¬ 0 < it.lifeSpan) ∧
    tableNeg.item.lookup 1 = some (NewCacheItem 0 1 7 (-1)) ∧
    ∃ t, CacheTable.expirationCheck 5 tableNeg = .ok t ∧ t.item.lookup 1 = none := by
  refine ⟨rfl, ?_, rfl, _, rfl, rfl⟩
  intro k it hl
  have hk : k = 1 := by
    have hmem : k ∈ tableNeg.item.keys :=
      AList.mem_keys.mp (AList.lookup_isSome.mp (by simp [hl]))
    simpa [tableNeg, Cache] using hmem
  subst hk
  have h2 : some it = _ := hl.symm.trans (by rfl)
  cases h2
  decide

/-- C17, amended: for every table whose lock is free and that holds no item
with a lifeSpan other than zero, expirationCheck at any time returns having
removed no item and called no user function, with cleanupInterval 0 and no
timer pending; every other field is as before.  In particular, for the
table left by Flush() on any table `t0` whose lock is free, the sweep
returns that table unchanged. -/
theorem stale_sweep_noop (t t0 : CacheTable) (now : Time) (hmu : t.mu = ⟨0, false⟩)
    (hzero : ∀ k it, t.item.lookup k = some it → it.lifeSpan = 0)
    (hmu0 : t0.mu = ⟨0, false⟩) :
    (∃ t2, CacheTable.expirationCheck now t = .ok t2 ∧
      t2 = { t with cleanupInterval := 0, cleanupTimer := t2.cleanupTimer } ∧
      t2.item = t.item ∧ t2.calls = t.calls ∧ t2.cleanupInterval = 0 ∧
      ∀ d, t2.cleanupTimer ≠ some ⟨d, true⟩) ∧
    ∃ tf, CacheTable.Flush t0 = .ok tf ∧ tf.item = ∅ ∧
      CacheTable.expirationCheck now tf = .ok tf := by
  have key : ∀ t : CacheTable, t.mu = ⟨0, false⟩ →
      (∀ k it, t.item.lookup k = some it → it.lifeSpan = 0) →
      CacheTable.expirationCheck now t =
        .ok { t with cleanupInterval := 0, cleanupTimer := t.cleanupTimer.map Timer.Stop } := by
    intro t hmu hzero
    unfold CacheTable.expirationCheck
    simp only [CacheTable.Lock_free t hmu, bind, Except.bind]
    have hloop := CacheTable.sweep_loop_zero now t.item.keys
      { t with mu := ⟨0, true⟩, cleanupTimer := t.cleanupTimer.map Timer.Stop } 0 hzero
    rw [hloop]
    simp only [gt_iff_lt, lt_self_iff_false, if_false, CacheTable.Unlock, if_true]
    rw [← hmu]
  have hstop : ∀ (o : Option Timer) (d : Duration), o.map Timer.Stop ≠ some ⟨d, true⟩ := by
    intro o d
    cases o with
    | none => simp
    | some tm => simp [Timer.Stop]
  constructor
  · exact ⟨_, key t hmu hzero, rfl, rfl, rfl, rfl, hstop _⟩
  · refine ⟨{ t0 with
        item := ∅
        cleanupInterval := 0
        cleanupTimer := t0.cleanupTimer.map Timer.Stop }, ?_, rfl, ?_⟩
    · simp only [CacheTable.Flush, CacheTable.Lock_free t0 hmu0, bind, Except.bind,
        CacheTable.Unlock, if_true]
      rw [← hmu0]
    · have hrun := key { t0 with
          item := ∅
          cleanupInterval := 0
          cleanupTimer := t0.cleanupTimer.map Timer.Stop } hmu0
        (fun k it hl => by rw [AList.lookup_empty] at hl; cases hl)
      rw [hrun]
      cases h : t0.cleanupTimer with
      | none => rfl
      | some tm => rfl

/-- The amended C17 at `tableZero`, swept at time 40, and at `tableThree` for
Flush. -/
theorem stale_sweep_noop_witness :
    (tableZero.mu = ⟨0, false⟩ ∧
      (∀ k it, tableZero.item.lookup k = some it → it.lifeSpan = 0) ∧
      tableThree.mu = ⟨0, false⟩) ∧
    ((∃ t2, CacheTable.expirationCheck 40 tableZero = .ok t2 ∧
      t2 = { tableZero with cleanupInterval := 0, cleanupTimer := t2.cleanupTimer } ∧
      t2.item = tableZero.item ∧ t2.calls = tableZero.calls ∧ t2.cleanupInterval = 0 ∧
      ∀ d, t2.cleanupTimer ≠ some ⟨d, true⟩) ∧
    ∃ tf, CacheTable.Flush tableThree = .ok tf ∧ tf.item = ∅ ∧
      CacheTable.expirationCheck 40 tf = .ok tf) :=
  have hz : ∀ k it, tableZero.item.lookup k = some it → it.lifeSpan = 0 := by
    intro k it hl
    have hk : k = 3 := by
      have hmem : k ∈ tableZero.item.keys :=
        AList.mem_keys.mp (AList.lookup_isSome.mp (by simp [hl]))
      simpa [tableZero, Cache] using hmem
    subst hk
    have h2 : some it = _ := hl.symm.trans (by rfl)
    cases h2
    rfl
  ⟨⟨rfl, hz, rfl⟩, stale_sweep_noop tableZero tableThree 40 rfl hz rfl⟩

/-! ## C19: lock balance -/

/-- C19 fails on the code: Delete(1) on `tableThree`, whose lock is free and
which holds key 1, does not return with the lock free: Delete releases the
write lock it took and then calls deleteInternal, whose table.Unlock() finds
the lock not held, which is a fatal error of the runtime.  And Value(1) on
`tableLoader`, a miss whose loader yields an item, requests the write lock
(in Add) while holding the read lock, and blocks. -/
theorem Delete_present_unlocks_twice :
    tableThree.mu = ⟨0, false⟩ ∧
    tableThree.item.lookup 1 = some (NewCacheItem 0 1 100 10) ∧
    CacheTable.Delete 1 tableThree = .error .unlockOfUnlocked ∧
    tableLoader.mu = ⟨0, false⟩ ∧
    CacheTable.Value 0 0 0 1 tableLoader = .error .deadlock :=
  ⟨rfl, rfl, rfl, rfl, rfl⟩

/-! ## The calls of an insertion -/

namespace CacheTable

theorem callAll_added (item : CacheItem) (t : CacheTable) :
    callAll .addedItem t.addedItem item.key
        { t with item := t.item.insert item.key item, mu := ⟨0, false⟩ } =
      { t with
        item := t.item.insert item.key item
        mu := ⟨0, false⟩
        calls := t.calls ++ t.addedItem.map fun f =>
          (⟨.addedItem, f, item.key, ⟨0, false⟩, t.itemRLocks, true⟩ : Call) } := by
  rw [callAll_eq]
  simp [AList.lookup_insert]

theorem addInternal_calls (nowSweep : Time) (item : CacheItem) (t : CacheTable)
    (hmu : t.mu = ⟨0, true⟩) :
    ∃ t2 rest, addInternal nowSweep item t = .ok t2 ∧ t2.mu = ⟨0, false⟩ ∧
      t2.calls = t.calls ++ (t.addedItem.map fun f =>
          (⟨.addedItem, f, item.key, ⟨0, false⟩, t.itemRLocks, true⟩ : Call)) ++ rest ∧
      ∀ x ∈ rest, sweepCall t x := by
  rw [addInternal_held nowSweep item t hmu, callAll_added]
  split_ifs with h
  · obtain ⟨m, rest, hrun, _, hq⟩ := expirationCheck_calls nowSweep
      { t with
        item := t.item.insert item.key item
        mu := ⟨0, false⟩
        calls := t.calls ++ t.addedItem.map fun f =>
          (⟨.addedItem, f, item.key, ⟨0, false⟩, t.itemRLocks, true⟩ : Call) } rfl
    exact ⟨_, rest, hrun, rfl, rfl, hq⟩
  · exact ⟨_, [], rfl, rfl, by simp, fun x hx => absurd hx (List.not_mem_nil x)⟩

theorem SetAddedItemCallback_free (f : Nat) (t : CacheTable) (hmu : t.mu = ⟨0, false⟩) :
    SetAddedItemCallback f t = .ok { t with addedItem := [f] } := by
  unfold SetAddedItemCallback RemoveAddedItemCallbacks
  by_cases hlen : t.addedItem.length > 0
  · simp [RLock, RUnlock, hmu, bind, Except.bind, pure, Except.pure, hlen]
  · have hnil : t.addedItem = [] := by
      cases h : t.addedItem with
      | nil => rfl
      | cons a l => rw [h] at hlen; simp at hlen
    simp [RLock, RUnlock, hmu, bind, Except.bind, pure, Except.pure, hnil]

theorem AddAddedItemCallback_free (f : Nat) (t : CacheTable) (hmu : t.mu = ⟨0, false⟩) :
    AddAddedItemCallback f t = .ok { t with addedItem := t.addedItem ++ [f] } := by
  unfold AddAddedItemCallback
  simp [RLock, RUnlock, hmu, bind, Except.bind]

end CacheTable

/-! ## C15: the added-item callbacks -/

/-- C15: for a table whose lock is free, SetAddedItemCallback(f) makes the
callback list [f] and AddAddedItemCallback(f) appends f to it; and with the
list [f1, ..., fn], Add, and NotFoundAdd on an absent key, return having
called f1, ..., fn, each once and in this order, each for the key of the
new item, with the key present in the map at the call; the calls recorded
after them are before-delete callbacks of the sweep that the insertion may
run. -/
theorem added_callbacks_in_order (t : CacheTable) (now nowSweep : Time) (key : Key)
    (lifeSpan : Duration) (data : Data) (f : Nat) (hmu : t.mu = ⟨0, false⟩) :
    CacheTable.SetAddedItemCallback f t = .ok { t with addedItem := [f] } ∧
    CacheTable.AddAddedItemCallback f t = .ok { t with addedItem := t.addedItem ++ [f] } ∧
    (∃ item t2 rest, CacheTable.Add now nowSweep key lifeSpan data t = .ok (item, t2) ∧
      t2.calls = t.calls ++ (t.addedItem.map fun g =>
          (⟨.addedItem, g, key, ⟨0, false⟩, t.itemRLocks, true⟩ : Call)) ++ rest ∧
      ∀ x ∈ rest, x.hook = .aboutDeleteItem) ∧
    (t.item.lookup key = none →
      ∃ t2 rest, CacheTable.NotFoundAdd now nowSweep key data lifeSpan t = .ok (true, t2) ∧
        t2.calls = t.calls ++ (t.addedItem.map fun g =>
            (⟨.addedItem, g, key, ⟨0, false⟩, t.itemRLocks, true⟩ : Call)) ++ rest ∧
        ∀ x ∈ rest, x.hook = .aboutDeleteItem) := by
  obtain ⟨t2, rest, hrun, _, hcalls, hq⟩ := CacheTable.addInternal_calls nowSweep
    (NewCacheItem now key data lifeSpan) { t with mu := ⟨0, true⟩ } rfl
  refine ⟨CacheTable.SetAddedItemCallback_free f t hmu,
    CacheTable.AddAddedItemCallback_free f t hmu, ?_, ?_⟩
  · refine ⟨NewCacheItem now key data lifeSpan, t2, rest, ?_, hcalls, fun x hx => (hq x hx).1⟩
    simp only [CacheTable.Add, CacheTable.Lock_free t hmu, bind, Except.bind, hrun]
    rfl
  · intro hl
    refine ⟨t2, rest, ?_, hcalls, fun x hx => (hq x hx).1⟩
    simp only [CacheTable.NotFoundAdd, CacheTable.Lock_free t hmu, bind, Except.bind, hl,
      Option.isSome_none, Bool.false_eq_true, if_false, hrun]
    rfl

/-- C15 at `tableCounts`, whose callback list is [5, 6]: Add(4, 5, 9) at
time 3 and NotFoundAdd(4, 9, 5). -/
theorem added_callbacks_in_order_witness :
    tableCounts.mu = ⟨0, false⟩ ∧
    (CacheTable.SetAddedItemCallback 8 tableCounts = .ok { tableCounts with addedItem := [8] } ∧
    CacheTable.AddAddedItemCallback 8 tableCounts =
      .ok { tableCounts with addedItem := tableCounts.addedItem ++ [8] } ∧
    (∃ item t2 rest, CacheTable.Add 3 3 4 5 9 tableCounts = .ok (item, t2) ∧
      t2.calls = tableCounts.calls ++ (tableCounts.addedItem.map fun g =>
          (⟨.addedItem, g, 4, ⟨0, false⟩, tableCounts.itemRLocks, true⟩ : Call)) ++ rest ∧
      ∀ x ∈ rest, x.hook = .aboutDeleteItem) ∧
    (tableCounts.item.lookup 4 = none →
      ∃ t2 rest, CacheTable.NotFoundAdd 3 3 4 9 5 tableCounts = .ok (true, t2) ∧
        t2.calls = tableCounts.calls ++ (tableCounts.addedItem.map fun g =>
            (⟨.addedItem, g, 4, ⟨0, false⟩, tableCounts.itemRLocks, true⟩ : Call)) ++ rest ∧
        ∀ x ∈ rest, x.hook = .aboutDeleteItem)) :=
  ⟨rfl, added_callbacks_in_order tableCounts 3 3 4 5 9 8 rfl⟩

/-! ## C16: the wake-up after Add -/

theorem CacheTable.addInternal_free (nowSweep : Time) (item : CacheItem) (t : CacheTable)
    (hmu : t.mu = ⟨0, false⟩) :
    CacheTable.addInternal nowSweep item { t with mu := ⟨0, true⟩ } =
      if item.lifeSpan > 0 ∧ (t.cleanupInterval = 0 ∨ item.lifeSpan < t.cleanupInterval) then
        CacheTable.expirationCheck nowSweep (CacheTable.callAll .addedItem t.addedItem item.key
          { t with item := t.item.insert item.key item })
      else
        .ok (CacheTable.callAll .addedItem t.addedItem item.key
          { t with item := t.item.insert item.key item }) := by
  rw [CacheTable.addInternal_held nowSweep item _ rfl]
  cases t
  cases hmu
  rfl

/-- C16, as stated, fails: Add(1, 1, 9) with its item made at time 3 and its
sweep run at time 4, when the lifeSpan 1 has elapsed, leaves `tableThree`
with cleanupInterval 21, more than lifeSpan; and Add(1, 1, 9) with its item
made at time 0 and its sweep run at time 1 leaves the new table with
cleanupInterval 0, which is not positive, and no timer armed. -/
theorem Add_late_sweep_cleanupInterval :
    tableThree.mu = ⟨0, false⟩ ∧ tableThree.cleanupInterval = 0 ∧
    (∃ item t2, CacheTable.Add 3 4 1 1 9 tableThree = .ok (item, t2) ∧
      t2.cleanupInterval = 21) ∧
    (Cache "t").mu = ⟨0, false⟩ ∧
    ∃ item t2, CacheTable.Add 0 1 1 1 9 (Cache "t") = .ok (item, t2) ∧
      t2.cleanupInterval = 0 ∧ t2.cleanupTimer = none :=
  ⟨rfl, rfl, ⟨_, _, rfl, rfl⟩, rfl, _, _, rfl, rfl, rfl⟩

/-- C16, amended: for a table whose lock is free and whose cleanupInterval is
not negative, and Add(key, lifeSpan, data) with lifeSpan > 0 whose sweep,
if any, reads the clock not before the item was made and less than lifeSpan
after it, the call returns with cleanupInterval positive and at most
lifeSpan; when
nothing was armed (cleanupInterval == 0) or lifeSpan is smaller than the
previous cleanupInterval, the table returned is the one a sweep returns on
the table with the item inserted and the added-item callbacks called, and
otherwise cleanupInterval is unchanged. -/
theorem Add_cleanupInterval (t : CacheTable) (now nowSweep : Time) (key : Key)
    (lifeSpan : Duration) (data : Data) (hmu : t.mu = ⟨0, false⟩)
    (hpos : 0 < lifeSpan) (hint : 0 ≤ t.cleanupInterval) (hnow : now ≤ nowSweep)
    (htime : nowSweep - now < lifeSpan) :
    ∃ item t2, CacheTable.Add now nowSweep key lifeSpan data t = .ok (item, t2) ∧
      0 < t2.cleanupInterval ∧ t2.cleanupInterval ≤ lifeSpan ∧
      ((t.cleanupInterval = 0 ∨ lifeSpan < t.cleanupInterval) →
        CacheTable.expirationCheck nowSweep
          (CacheTable.callAll .addedItem t.addedItem key
            { t with item := t.item.insert key item }) = .ok t2) ∧
      (¬ (t.cleanupInterval = 0 ∨ lifeSpan < t.cleanupInterval) →
        t2.cleanupInterval = t.cleanupInterval) := by
  have hadd := CacheTable.addInternal_free nowSweep (NewCacheItem now key data lifeSpan) t hmu
  have hAdd : CacheTable.Add now nowSweep key lifeSpan data t =
      (CacheTable.addInternal nowSweep (NewCacheItem now key data lifeSpan)
        { t with mu := ⟨0, true⟩ }).map fun t2 => (NewCacheItem now key data lifeSpan, t2) := by
    simp only [CacheTable.Add, CacheTable.Lock_free t hmu, bind, Except.bind]
    cases CacheTable.addInternal nowSweep (NewCacheItem now key data lifeSpan)
      { t with mu := ⟨0, true⟩ } <;> rfl
  by_cases hc : t.cleanupInterval = 0 ∨ lifeSpan < t.cleanupInterval
  · have hcond : (NewCacheItem now key data lifeSpan).lifeSpan > 0 ∧
        (t.cleanupInterval = 0 ∨
          (NewCacheItem now key data lifeSpan).lifeSpan < t.cleanupInterval) := ⟨hpos, hc⟩
    rw [if_pos hcond] at hadd
    obtain ⟨m, c, hrun, _⟩ := CacheTable.expirationCheck_free nowSweep
      (CacheTable.callAll .addedItem t.addedItem key
        { t with item := t.item.insert key (NewCacheItem now key data lifeSpan) })
      (by rw [CacheTable.callAll_mu]; exact hmu)
    have hkey : key ∈ (t.item.insert key (NewCacheItem now key data lifeSpan)).keys :=
      AList.mem_keys.mp ((AList.mem_insert _).mpr (Or.inl rfl))
    obtain ⟨_, _, s3, _⟩ := CacheTable.minFold_spec nowSweep
      (t.item.insert key (NewCacheItem now key data lifeSpan))
      (t.item.insert key (NewCacheItem now key data lifeSpan)).keys 0 (le_refl _)
    have hb := s3 key hkey (NewCacheItem now key data lifeSpan) (AList.lookup_insert _)
      (ne_of_gt hpos) htime
    have hS : CacheTable.sweepMin nowSweep
        (CacheTable.callAll .addedItem t.addedItem key
          { t with item := t.item.insert key (NewCacheItem now key data lifeSpan) }).item =
        (t.item.insert key (NewCacheItem now key data lifeSpan)).keys.foldl
          (CacheTable.minStep nowSweep
            (t.item.insert key (NewCacheItem now key data lifeSpan))) 0 := by
      rw [CacheTable.callAll_item]
      rfl
    refine ⟨NewCacheItem now key data lifeSpan, _, ?_, ?_, ?_, fun _ => hrun, fun h => absurd hc h⟩
    · rw [hAdd, hadd]
      show Except.map _ (CacheTable.expirationCheck nowSweep
        (CacheTable.callAll .addedItem t.addedItem key
          { t with item := t.item.insert key (NewCacheItem now key data lifeSpan) })) = _
      rw [hrun]
      rfl
    · show 0 < CacheTable.sweepMin nowSweep _
      rw [hS]
      exact hb.1
    · show CacheTable.sweepMin nowSweep _ ≤ lifeSpan
      rw [hS]
      have h2 : _ ≤ lifeSpan - (nowSweep - now) := hb.2
      have h3 : lifeSpan - (nowSweep - now) ≤ lifeSpan := by linarith
      exact le_trans h2 h3
  · have hcond : ¬ ((NewCacheItem now key data lifeSpan).lifeSpan > 0 ∧
        (t.cleanupInterval = 0 ∨
          (NewCacheItem now key data lifeSpan).lifeSpan < t.cleanupInterval)) :=
      fun h => hc h.2
    rw [if_neg hcond] at hadd
    have hci : (CacheTable.callAll .addedItem t.addedItem key
        { t with item := t.item.insert key (NewCacheItem now key data lifeSpan) }).cleanupInterval =
        t.cleanupInterval := by
      rw [CacheTable.callAll_eq]
    have hlt : (0 : Int) < t.cleanupInterval ∧ t.cleanupInterval ≤ lifeSpan := by
      have h1 : t.cleanupInterval ≠ 0 := fun h => hc (Or.inl h)
      have h2 : t.cleanupInterval ≤ lifeSpan := not_lt.mp fun h => hc (Or.inr h)
      exact ⟨lt_of_le_of_ne hint (Ne.symm h1), h2⟩
    refine ⟨NewCacheItem now key data lifeSpan, _, ?_, ?_, ?_, fun h => absurd h hc, fun _ => hci⟩
    · rw [hAdd, hadd]
      rfl
    · rw [hci]
      exact hlt.1
    · rw [hci]
      exact hlt.2

/-- The amended C16 at `tableThree`: Add(4, 5, 9) at time 3, its sweep at
time 4. -/
theorem Add_cleanupInterval_witness :
    (tableThree.mu = ⟨0, false⟩ ∧ (0 : Duration) < 5 ∧ 0 ≤ tableThree.cleanupInterval ∧
      (3 : Time) ≤ 4 ∧ (4 : Time) - 3 < (5 : Duration)) ∧
    ∃ item t2, CacheTable.Add 3 4 4 5 9 tableThree = .ok (item, t2) ∧
      0 < t2.cleanupInterval ∧ t2.cleanupInterval ≤ 5 ∧
      ((tableThree.cleanupInterval = 0 ∨ 5 < tableThree.cleanupInterval) →
        CacheTable.expirationCheck 4
          (CacheTable.callAll .addedItem tableThree.addedItem 4
            { tableThree with item := tableThree.item.insert 4 item }) = .ok t2) ∧
      (¬ (tableThree.cleanupInterval = 0 ∨ 5 < tableThree.cleanupInterval) →
        t2.cleanupInterval = tableThree.cleanupInterval) :=
  ⟨⟨rfl, by decide, by decide, by decide, by decide⟩,
    Add_cleanupInterval tableThree 3 4 4 5 9 rfl (by decide) (by decide) (by decide)
      (by decide)⟩

/-! ## C18: the locks held at a callback -/

/-- C18, as stated, fails: at `tableHooks`, with the table lock free and no
item lock held, the sweep at time 12 returns having called the
before-delete callback twice, both times with the table lock free, the
second time while holding the read lock of the item being removed. -/
theorem sweep_callback_under_item_lock :
    tableHooks.mu = ⟨0, false⟩ ∧ tableHooks.itemRLocks = 0 ∧
    ∃ t, CacheTable.expirationCheck 12 tableHooks = .ok t ∧
      t.calls.map (fun x => (x.hook, x.mu, x.itemRLocks)) =
        [(.aboutDeleteItem, ⟨0, false⟩, 0), (.aboutDeleteItem, ⟨0, false⟩, 1)] :=
  ⟨rfl, rfl, _, rfl, rfl⟩

/-- C18, amended: started with the table lock free and no item lock held,
Add, NotFoundAdd and the sweep return, and at every call of an added-item
or before-delete callback they record, the table lock is held neither in
shared nor in exclusive mode; no item lock is held at an added-item
callback, and at a before-delete callback at most the read lock of the
item being removed is held. -/
theorem callbacks_lock_state (t : CacheTable) (now nowSweep : Time) (key : Key)
    (lifeSpan : Duration) (data : Data) (hmu : t.mu = ⟨0, false⟩)
    (hitem : t.itemRLocks = 0) :
    (∃ item t2 rest, CacheTable.Add now nowSweep key lifeSpan data t = .ok (item, t2) ∧
      t2.calls = t.calls ++ rest ∧ ∀ x ∈ rest, callUnlocked x) ∧
    (∃ b t2 rest, CacheTable.NotFoundAdd now nowSweep key data lifeSpan t = .ok (b, t2) ∧
      t2.calls = t.calls ++ rest ∧ ∀ x ∈ rest, callUnlocked x) ∧
    (∃ t2 rest, CacheTable.expirationCheck now t = .ok t2 ∧
      t2.calls = t.calls ++ rest ∧ ∀ x ∈ rest, callUnlocked x) := by
  have hsweep : ∀ (t0 : CacheTable) (x : Call), t0.itemRLocks = 0 → sweepCall t0 x →
      callUnlocked x := by
    intro t0 x h0 hx
    obtain ⟨h1, _, h3, h4, _⟩ := hx
    refine ⟨h3, ?_, ?_, fun _ => ?_⟩
    · rw [h1]
      intro h
      cases h
    · intro h
      rw [h1] at h
      cases h
    · rw [h0] at h4
      rcases h4 with h4 | h4
      · rw [h4]
        decide
      · rw [h4]
  obtain ⟨t2, rest, hrun, _, hcalls, hq⟩ := CacheTable.addInternal_calls nowSweep
    (NewCacheItem now key data lifeSpan) { t with mu := ⟨0, true⟩ } rfl
  have hall : ∀ x ∈ (t.addedItem.map fun g =>
      (⟨.addedItem, g, key, ⟨0, false⟩, t.itemRLocks, true⟩ : Call)) ++ rest,
      callUnlocked x := by
    intro x hx
    rcases List.mem_append.mp hx with h | h
    · obtain ⟨g, _, rfl⟩ := List.mem_map.mp h
      exact ⟨rfl, (fun h => by cases h), (fun _ => hitem), (fun h => by cases h)⟩
    · exact hsweep _ x hitem (hq x h)
  have hcalls2 : t2.calls = t.calls ++ ((t.addedItem.map fun g =>
      (⟨.addedItem, g, key, ⟨0, false⟩, t.itemRLocks, true⟩ : Call)) ++ rest) := by
    rw [hcalls, List.append_assoc]
    rfl
  refine ⟨⟨NewCacheItem now key data lifeSpan, t2, _, ?_, hcalls2, hall⟩, ?_, ?_⟩
  · simp only [CacheTable.Add, CacheTable.Lock_free t hmu, bind, Except.bind, hrun]
    rfl
  · cases hl : t.item.lookup key with
    | some r =>
      refine ⟨false, t, [], ?_, by simp, fun x hx => absurd hx (List.not_mem_nil x)⟩
      simp only [CacheTable.NotFoundAdd, CacheTable.Lock_free t hmu, bind, Except.bind, hl,
        Option.isSome_some, if_true, CacheTable.Unlock, pure, Except.pure]
      rw [← hmu, CacheTable.with_mu_self t _ rfl]
    | none =>
      refine ⟨true, t2, _, ?_, hcalls2, hall⟩
      simp only [CacheTable.NotFoundAdd, CacheTable.Lock_free t hmu, bind, Except.bind, hl,
        Option.isSome_none, Bool.false_eq_true, if_false, hrun]
      rfl
  · obtain ⟨m, rest2, hrun2, _, hq2⟩ := CacheTable.expirationCheck_calls now t hmu
    exact ⟨_, rest2, hrun2, rfl, fun x hx => hsweep t x hitem (hq2 x hx)⟩

/-- The amended C18 at `tableHooks`: Add(2, 5, 9) and NotFoundAdd(2, 9, 5) at
time 13, and the sweep at time 13. -/
theorem callbacks_lock_state_witness :
    (tableHooks.mu = ⟨0, false⟩ ∧ tableHooks.itemRLocks = 0) ∧
    ((∃ item t2 rest, CacheTable.Add 13 13 2 5 9 tableHooks = .ok (item, t2) ∧
      t2.calls = tableHooks.calls ++ rest ∧ ∀ x ∈ rest, callUnlocked x) ∧
    (∃ b t2 rest, CacheTable.NotFoundAdd 13 13 2 9 5 tableHooks = .ok (b, t2) ∧
      t2.calls = tableHooks.calls ++ rest ∧ ∀ x ∈ rest, callUnlocked x) ∧
    (∃ t2 rest, CacheTable.expirationCheck 13 tableHooks = .ok t2 ∧
      t2.calls = tableHooks.calls ++ rest ∧ ∀ x ∈ rest, callUnlocked x)) :=
  ⟨⟨rfl, rfl⟩, callbacks_lock_state tableHooks 13 13 2 5 9 rfl rfl⟩

/-! ## MostAccessed -/

theorem descSort_sorts : Sorts descSort := by
  intro p
  haveI : IsTotal CacheItemPair (fun a b => b.AccessCount ≤ a.AccessCount) :=
    ⟨fun a b => le_total b.AccessCount a.AccessCount⟩
  haveI : IsTrans CacheItemPair (fun a b => b.AccessCount ≤ a.AccessCount) :=
    ⟨fun a b c hab hbc => le_trans hbc hab⟩
  refine ⟨List.perm_insertionSort _ p, ?_⟩
  have hs := List.sorted_insertionSort (fun a b : CacheItemPair => b.AccessCount ≤ a.AccessCount) p
  refine List.Pairwise.imp ?_ hs
  intro a b hab
  simp only [CacheItemPairList.Less, gt_iff_lt, decide_eq_false_iff_not, not_lt]
  exact hab

namespace CacheTable

theorem mostLoop_spec (t : CacheTable) (count : Int) (l : List CacheItemPair) :
    ∀ (c : Int) (r : List CacheItem), (∀ v ∈ l, ∃ it, t.resolves v it) →
      ∃ items, mostLoop t count l c r = r ++ items ∧
        List.Forall₂ t.resolves (l.take (count - c).toNat) items := by
  induction l with
  | nil =>
    intro c r _
    exact ⟨[], by simp [mostLoop], by simp⟩
  | cons v rest ih =>
    intro c r hres
    by_cases hc : c ≥ count
    · refine ⟨[], by simp [mostLoop, hc], ?_⟩
      have h0 : (count - c).toNat = 0 := by
        simp only [Int.toNat_eq_zero]
        omega
      rw [h0]
      simp
    · obtain ⟨it, hit⟩ := hres v (List.mem_cons_self _ _)
      obtain ⟨items, hrun, hall⟩ := ih (c + 1) (r ++ [it])
        (fun w hw => hres w (List.mem_cons_of_mem _ hw))
      refine ⟨it :: items, ?_, ?_⟩
      · simp only [mostLoop, hc, if_false, hit.1, hrun]
        simp
      · have hn : (count - c).toNat = (count - (c + 1)).toNat + 1 := by omega
        rw [hn, List.take_succ_cons]
        exact List.Forall₂.cons hit hall

theorem mem_pairs (t : CacheTable) (v : CacheItemPair) :
    v ∈ t.pairs ↔ ∃ it, t.item.lookup v.key = some it ∧ it.accessCount = v.AccessCount := by
  unfold pairs
  constructor
  · intro h
    obtain ⟨e, he, rfl⟩ := List.mem_map.mp h
    refine ⟨e.2, ?_, rfl⟩
    exact AList.mem_lookup_iff.mpr he
  · rintro ⟨it, hl, hc⟩
    refine List.mem_map.mpr ⟨⟨v.key, it⟩, AList.mem_lookup_iff.mp hl, ?_⟩
    cases v
    simp only at hc
    simp [hc]

theorem pairs_keys (t : CacheTable) : t.pairs.map (fun v => v.key) = t.item.keys := by
  unfold pairs
  rw [List.map_map]
  rfl

theorem MostAccessed_top (sort : List CacheItemPair → List CacheItemPair) (count : Int)
    (t : CacheTable) (hmu : t.mu = ⟨0, false⟩) (hsort : Sorts sort) :
    ∃ r, MostAccessed sort count t = .ok (r, t) ∧
      List.Forall₂ t.resolves ((sort t.pairs).take count.toNat) r := by
  have hres : ∀ v ∈ sort t.pairs, ∃ it, t.resolves v it := by
    intro v hv
    exact (mem_pairs t v).mp ((hsort t.pairs).1.mem_iff.mp hv)
  obtain ⟨items, hrun, hall⟩ := mostLoop_spec t count (sort t.pairs) 0 [] hres
  refine ⟨items, ?_, by simpa using hall⟩
  have hloop : mostLoop { t with mu := ⟨1, false⟩ } count (sort t.pairs) 0 [] = items := by
    have : mostLoop { t with mu := ⟨1, false⟩ } count (sort t.pairs) 0 [] =
        mostLoop t count (sort t.pairs) 0 [] := by
      generalize sort t.pairs = l
      generalize (0 : Int) = c
      generalize ([] : List CacheItem) = r
      induction l generalizing c r with
      | nil => rfl
      | cons v rest ih =>
        simp only [mostLoop]
        split_ifs
        · rfl
        · cases t.item.lookup v.key with
          | none => exact ih _ _
          | some it => exact ih _ _
    rw [this, hrun]
    rfl
  simp only [MostAccessed, RLock, RUnlock, hmu, bind, Except.bind, pure, Except.pure,
    Bool.false_eq_true, if_false]
  simp only [true_and, Nat.lt_add_one, if_true, Nat.add_sub_cancel, Nat.zero_add]
  have hp : (List.map (fun e : Sigma fun _ : Key => CacheItem =>
      (⟨e.1, e.2.accessCount⟩ : CacheItemPair)) t.item.entries) = t.pairs := rfl
  rw [hp, hloop, ← hmu, with_mu_self t _ rfl]

end CacheTable

namespace CacheTable

theorem resolves_keys (t : CacheTable) (top : List CacheItemPair) (r : List CacheItem)
    (h : List.Forall₂ t.resolves top r) :
    List.Forall₂ (fun k it => t.item.lookup k = some it) (top.map fun v => v.key) r := by
  induction h with
  | nil => exact List.Forall₂.nil
  | cons hv _ ih => exact List.Forall₂.cons hv.1 ih

theorem resolves_mem (t : CacheTable) (top : List CacheItemPair) (r : List CacheItem)
    (h : List.Forall₂ t.resolves top r) :
    ∀ it ∈ r, ∃ v ∈ top, t.resolves v it := by
  induction h with
  | nil => intro it hit; exact absurd hit (List.not_mem_nil it)
  | cons hv _ ih =>
    intro it hit
    rcases List.mem_cons.mp hit with rfl | hit
    · exact ⟨_, List.mem_cons_self _ _, hv⟩
    · obtain ⟨v, hv2, hr⟩ := ih it hit
      exact ⟨v, List.mem_cons_of_mem _ hv2, hr⟩

theorem resolves_pairwise (t : CacheTable) (top : List CacheItemPair) (r : List CacheItem)
    (h : List.Forall₂ t.resolves top r)
    (hp : top.Pairwise fun a b => CacheItemPairList.Less b a = false) :
    r.Pairwise fun a b => a.accessCount ≥ b.accessCount := by
  induction h with
  | nil => exact List.Pairwise.nil
  | @cons v it top r hv hrest ih =>
    obtain ⟨hhead, htail⟩ := List.pairwise_cons.mp hp
    refine List.pairwise_cons.mpr ⟨?_, ih htail⟩
    intro it2 hit2
    obtain ⟨v2, hv2, hr2⟩ := resolves_mem t top r hrest it2 hit2
    have hl := hhead v2 hv2
    simp only [CacheItemPairList.Less, gt_iff_lt, decide_eq_false_iff_not, not_lt] at hl
    rw [hv.2, hr2.2]
    exact hl

theorem Count_free (t : CacheTable) (hmu : t.mu = ⟨0, false⟩) :
    Count t = .ok (t.item.entries.length, t) := by
  simp only [Count, RLock, RUnlock, hmu, bind, Except.bind, pure, Except.pure,
    Bool.false_eq_true, if_false]
  simp only [true_and, Nat.lt_add_one, if_true, Nat.add_sub_cancel]
  rw [← hmu, with_mu_self t _ rfl]

end CacheTable

/-! ## C13: how many items MostAccessed returns -/

/-- C13: for a table whose lock is free, a sort that does what sort.Sort
does, and a count k >= 0, MostAccessed(k) returns a sequence of exactly
min(k, Count()) items; each is the item stored under a key of the table,
and these keys are pairwise different: no item appears twice. -/
theorem MostAccessed_length (sort : List CacheItemPair → List CacheItemPair) (count : Int)
    (t : CacheTable) (hmu : t.mu = ⟨0, false⟩) (hsort : Sorts sort) (hk : 0 ≤ count) :
    ∃ r ks n, CacheTable.MostAccessed sort count t = .ok (r, t) ∧
      CacheTable.Count t = .ok (n, t) ∧ (r.length : Int) = min count n ∧
      List.Forall₂ (fun k it => t.item.lookup k = some it) ks r ∧ ks.Nodup := by
  obtain ⟨r, hrun, htop⟩ := CacheTable.MostAccessed_top sort count t hmu hsort
  refine ⟨r, ((sort t.pairs).take count.toNat).map (fun v => v.key), t.item.entries.length,
    hrun, CacheTable.Count_free t hmu, ?_, CacheTable.resolves_keys t _ r htop, ?_⟩
  · have h1 : r.length = ((sort t.pairs).take count.toNat).length := htop.length_eq.symm
    have h2 : (sort t.pairs).length = t.item.entries.length := by
      rw [(hsort t.pairs).1.length_eq]
      simp [CacheTable.pairs]
    rw [h1, List.length_take, h2]
    rcases le_total count.toNat t.item.entries.length with h | h
    · rw [min_eq_left h, min_eq_left (by omega)]
      omega
    · rw [min_eq_right h, min_eq_right (by omega)]
  · have hnd : ((sort t.pairs).map fun v => v.key).Nodup := by
      have hperm : ((sort t.pairs).map fun v => v.key).Perm t.item.keys := by
        rw [← CacheTable.pairs_keys]
        exact (hsort t.pairs).1.map _
      exact hperm.nodup_iff.mpr t.item.keys_nodup
    exact hnd.sublist ((List.take_sublist _ _).map _)

/-- C13 at `tableCounts` with the insertion sort and count 2. -/
theorem MostAccessed_length_witness :
    (tableCounts.mu = ⟨0, false⟩ ∧ Sorts descSort ∧ (0 : Int) ≤ 2) ∧
    ∃ r ks n, CacheTable.MostAccessed descSort 2 tableCounts = .ok (r, tableCounts) ∧
      CacheTable.Count tableCounts = .ok (n, tableCounts) ∧ (r.length : Int) = min (2 : Int) n ∧
      List.Forall₂ (fun k it => tableCounts.item.lookup k = some it) ks r ∧ ks.Nodup :=
  ⟨⟨rfl, descSort_sorts, by decide⟩,
    MostAccessed_length descSort 2 tableCounts rfl descSort_sorts (by decide)⟩

/-! ## C14: the order of the items MostAccessed returns -/

/-- C14: for a table whose lock is free, a sort that does what sort.Sort
does, and every count k, the sequence that MostAccessed(k) returns is
sorted descending by access count: the accessCount of each returned item is
greater than or equal to that of every item after it. -/
theorem MostAccessed_sorted (sort : List CacheItemPair → List CacheItemPair) (count : Int)
    (t : CacheTable) (hmu : t.mu = ⟨0, false⟩) (hsort : Sorts sort) :
    ∃ r, CacheTable.MostAccessed sort count t = .ok (r, t) ∧
      r.Pairwise fun a b => a.accessCount ≥ b.accessCount := by
  obtain ⟨r, hrun, htop⟩ := CacheTable.MostAccessed_top sort count t hmu hsort
  refine ⟨r, hrun, CacheTable.resolves_pairwise t _ r htop ?_⟩
  exact (hsort t.pairs).2.sublist (List.take_sublist _ _)

/-- C14 at `tableCounts` with the insertion sort and count 3. -/
theorem MostAccessed_sorted_witness :
    (tableCounts.mu = ⟨0, false⟩ ∧ Sorts descSort) ∧
    ∃ r, CacheTable.MostAccessed descSort 3 tableCounts = .ok (r, tableCounts) ∧
      r.Pairwise fun a b => a.accessCount ≥ b.accessCount :=
  ⟨⟨rfl, descSort_sorts⟩, MostAccessed_sorted descSort 3 tableCounts rfl descSort_sorts⟩

/-! ## C20: MostAccessed returns the most accessed items -/

/-- C20: for a table whose lock is free, a sort that does what sort.Sort
does, and every count k, MostAccessed(k) returns the items stored under
keys `ks` such that every item of the table stored under a key not among
`ks` has an accessCount less than or equal to the accessCount of every
returned item. -/
theorem MostAccessed_top_k (sort : List CacheItemPair → List CacheItemPair) (count : Int)
    (t : CacheTable) (hmu : t.mu = ⟨0, false⟩) (hsort : Sorts sort) :
    ∃ r ks, CacheTable.MostAccessed sort count t = .ok (r, t) ∧
      List.Forall₂ (fun k it => t.item.lookup k = some it) ks r ∧
      ∀ k2 it2, t.item.lookup k2 = some it2 → k2 ∉ ks →
        ∀ it ∈ r, it2.accessCount ≤ it.accessCount := by
  obtain ⟨r, hrun, htop⟩ := CacheTable.MostAccessed_top sort count t hmu hsort
  refine ⟨r, ((sort t.pairs).take count.toNat).map (fun v => v.key), hrun,
    CacheTable.resolves_keys t _ r htop, ?_⟩
  intro k2 it2 hl2 hk2 it hit
  obtain ⟨v, hv, hres⟩ := CacheTable.resolves_mem t _ r htop it hit
  have hmem : (⟨k2, it2.accessCount⟩ : CacheItemPair) ∈ sort t.pairs :=
    (hsort t.pairs).1.mem_iff.mpr ((CacheTable.mem_pairs t _).mpr ⟨it2, hl2, rfl⟩)
  rw [← List.take_append_drop count.toNat (sort t.pairs)] at hmem
  rcases List.mem_append.mp hmem with h | h
  · exact absurd (List.mem_map.mpr ⟨_, h, rfl⟩) hk2
  · have hpw := (hsort t.pairs).2
    rw [← List.take_append_drop count.toNat (sort t.pairs)] at hpw
    have hl := (List.pairwise_append.mp hpw).2.2 v hv _ h
    simp only [CacheItemPairList.Less, gt_iff_lt, decide_eq_false_iff_not, not_lt] at hl
    rw [hres.2]
    exact hl

/-- C20 at `tableCounts` with the insertion sort and count 2. -/
theorem MostAccessed_top_k_witness :
    (tableCounts.mu = ⟨0, false⟩ ∧ Sorts descSort) ∧
    ∃ r ks, CacheTable.MostAccessed descSort 2 tableCounts = .ok (r, tableCounts) ∧
      List.Forall₂ (fun k it => tableCounts.item.lookup k = some it) ks r ∧
      ∀ k2 it2, tableCounts.item.lookup k2 = some it2 → k2 ∉ ks →
        ∀ it ∈ r, it2.accessCount ≤ it.accessCount :=
  ⟨⟨rfl, descSort_sorts⟩, MostAccessed_top_k descSort 2 tableCounts rfl descSort_sorts⟩

end Cache2
